import Mathlib

/-!
Verification of the freecell-solver search core: a shallow embedding of
`src/deck.rs`, `src/freecell/basis.rs`, `src/freecell/game.rs`,
`src/freecell/invariant.rs`, `src/util/grader.rs` and
`src/freecell/solver.rs`, together with theorems settling the spec claims.

Cards are bytes in the Rust source; here they are `Nat` (all real cards are
`< 52`).  A `Pile` mirrors `Vec<u8>` with the vector's *last* element as the
top of the stack (`push`/`pop` act on the end).  The `Desk` is the 16-entry
vector of piles, indexed 0-3 foundations, 4-7 free cells, 8-15 cascades.
-/

namespace FC

/-! ## deck.rs -/

def RANK_NUM : Nat := 13

def SUIT_NUM : Nat := 4

def CARD_NUM : Nat := RANK_NUM * SUIT_NUM

/-- `deck::card_rank`: `(card / SUIT_NUM) % RANK_NUM`. -/
def card_rank (c : Nat) : Nat := c / SUIT_NUM % RANK_NUM

/-- `deck::card_suit`: `card % SUIT_NUM`. -/
def card_suit (c : Nat) : Nat := c % SUIT_NUM

/-- `deck::card_color`: `card & 1`. -/
def card_color (c : Nat) : Nat := c % 2

/-- `deck::is_card_black`: color 0 (spades, clubs). -/
def is_card_black (c : Nat) : Bool := card_color c == 0

/-- `deck::to_card`: `rank * SUIT_NUM + suit`. -/
def to_card (rank suit : Nat) : Nat := rank * SUIT_NUM + suit

/-! ## basis.rs -/

def BASE_NUM : Nat := 4

def CELL_NUM : Nat := 4

def PILE_NUM : Nat := 8

def DESK_SIZE : Nat := PILE_NUM + CELL_NUM + BASE_NUM

def BASE_START : Nat := 0

def BASE_END : Nat := BASE_START + BASE_NUM

def CELL_START : Nat := BASE_END

def CELL_END : Nat := CELL_START + CELL_NUM

def PILE_START : Nat := CELL_END

def PILE_END : Nat := PILE_START + PILE_NUM

/-- `basis::desk_range()`, as the list `[0, …, 15]`. -/
def desk_range : List Nat := List.range' 0 DESK_SIZE

/-- `basis::play_range()`: cells then cascades, `[4, …, 15]`. -/
def play_range : List Nat := List.range' BASE_END (DESK_SIZE - BASE_END)

/-- `basis::pile_range()`: the eight cascades, `[8, …, 15]`. -/
def pile_range : List Nat := List.range' PILE_START PILE_NUM

/-- `basis::base_range()`: the four foundations, `[0, 1, 2, 3]`. -/
def base_range : List Nat := List.range' BASE_START BASE_NUM

/-- `basis::cell_range()`: the four free cells, `[4, 5, 6, 7]`. -/
def cell_range : List Nat := List.range' CELL_START CELL_NUM

/-- `basis::is_tableau`: built down by one rank with alternating colors. -/
def is_tableau (card_a card_b : Nat) : Bool :=
  (card_rank card_a == card_rank card_b + 1) && (card_color card_a != card_color card_b)

/-! ## game.rs: data model -/

/-- `game::Move`: a giver spot and a taker spot.  (The Rust struct stores the
two spots as `u8`; every spot index is `< 16`, so `Nat` is faithful.) -/
structure Move where
  giver : Nat
  taker : Nat
deriving DecidableEq, Repr

abbrev Path := List Move

abbrev Pile := List Nat

abbrev Desk := List Pile

structure Game where
  desk : Desk
  path : Path
deriving DecidableEq, Repr

/-- Read a desk slot; out-of-range reads (which would panic in Rust) give the
empty pile. -/
def deskGet (d : Desk) (i : Nat) : Pile := d.getD i []

/-- `BaseRanks` of game.rs: minimal black and red foundation depths. -/
structure BaseRanks where
  blacks : Nat
  reds : Nat
deriving DecidableEq, Repr

/-- `BaseRanks::next_rank`: opposite color rank + 1. -/
def BaseRanks.next_rank (br : BaseRanks) (card : Nat) : Nat :=
  1 + (if is_card_black card then br.reds else br.blacks)

/-- `BaseRanks::ge`: next rank greater than or equal to card rank. -/
def BaseRanks.ge (br : BaseRanks) (card : Nat) : Bool :=
  br.next_rank card ≥ card_rank card

/-! ## game.rs: operations -/

/-- `Game::new()`. -/
def Game.new : Game :=
  { desk := List.replicate DESK_SIZE [], path := [] }

/-- `Game::card_at`: `desk[spot].last()`. -/
def Game.card_at (g : Game) (spot : Nat) : Option Nat :=
  (deskGet g.desk spot).getLast?

/-- `Game::move_card`: pop the giver's top card, push it on the taker, record
the move.  Rust panics when the giver is empty; the model leaves the game
unchanged in that case (callers only pass legal moves). -/
def Game.move_card (g : Game) (giver taker : Nat) : Game :=
  match (deskGet g.desk giver).getLast? with
  | none => g
  | some c =>
    let d1 := g.desk.set giver (deskGet g.desk giver).dropLast
    let d2 := d1.set taker (deskGet d1 taker ++ [c])
    { desk := d2, path := g.path ++ [⟨giver, taker⟩] }

/-- One iteration of the `Game::backward` loop: pop the last move and return
its card from the taker to the giver.  An empty taker (impossible for paths
built by `move_card`) just drops the move. -/
def Game.undo1 (g : Game) : Game :=
  match g.path.getLast? with
  | none => g
  | some mv =>
    match (deskGet g.desk mv.taker).getLast? with
    | none => { desk := g.desk, path := g.path.dropLast }
    | some c =>
      let d1 := g.desk.set mv.taker (deskGet g.desk mv.taker).dropLast
      let d2 := d1.set mv.giver (deskGet d1 mv.giver ++ [c])
      { desk := d2, path := g.path.dropLast }

theorem undo1_path_length (g : Game) (h : g.path ≠ []) :
    g.undo1.path.length = g.path.length - 1 := by
  unfold Game.undo1
  rcases hl : g.path.getLast? with _ | mv
  · exact absurd (List.getLast?_eq_none_iff.mp hl) h
  · cases hc : (deskGet g.desk mv.taker).getLast? <;>
      simp [hc, List.length_dropLast]

/-- The `Game::backward` while-loop, with the number of remaining iterations
made explicit (each iteration shortens the path by one, so `g.path.length`
iterations always suffice). -/
def backwardFuel : Nat → Game → Nat → Game
  | 0, g, _ => g
  | n + 1, g, mark => if g.path.length > mark then backwardFuel n g.undo1 mark else g

/-- `Game::backward(mark)`: undo moves while the path is longer than `mark`. -/
def Game.backward (g : Game) (mark : Nat) : Game :=
  backwardFuel g.path.length g mark

/-- `Game::rewind()`. -/
def Game.rewind (g : Game) : Game := g.backward 0

/-- `Game::forward(iter)`: replay a move sequence. -/
def Game.forward (g : Game) (p : Path) : Game :=
  p.foldl (fun g mv => g.move_card mv.giver mv.taker) g

/-- `Game::set_path(iter)`: rewind, then replay. -/
def Game.set_path (g : Game) (p : Path) : Game :=
  g.rewind.forward p

/-- `Game::is_move_forward`: a move is suppressed when it exactly reverses the
previous move of the path. -/
def Game.is_move_forward (g : Game) (giver taker : Nat) : Bool :=
  match g.path.getLast? with
  | some mv => (mv.giver != taker) || (mv.taker != giver)
  | none => true

/-- The round-robin loop of `Game::deal`. -/
def dealAux (d : Desk) (i : Nat) : List Nat → Desk
  | [] => d
  | c :: rest =>
    dealAux
      (d.set (PILE_START + i % PILE_NUM)
        (deskGet d (PILE_START + i % PILE_NUM) ++ [c])) (i + 1) rest

/-- `Game::deal(cards)`: clear every pile and the path, then distribute the
cards round-robin across the eight cascades. -/
def Game.deal (g : Game) (cards : List Nat) : Game :=
  { desk := dealAux (g.desk.map fun _ => []) 0 cards, path := [] }

/-- `Game::base_min_ranks`. -/
def Game.base_min_ranks (g : Game) : BaseRanks :=
  base_range.foldl
    (fun br i =>
      let rank := (deskGet g.desk i).length
      if is_card_black i then { br with blacks := min br.blacks rank }
      else { br with reds := min br.reds rank })
    { blacks := RANK_NUM, reds := RANK_NUM }

/-- The `((BASE_START + s)..BASE_END).step_by(SUIT_NUM)` iterator of
`Game::get_base`. -/
def stepByRange (start stop step : Nat) : List Nat :=
  (List.range ((stop - start + step - 1) / step)).map fun k => start + k * step

/-- `Game::get_base`: the foundation of the card's suit, provided its depth
equals the card's rank. -/
def Game.get_base (g : Game) (card : Nat) : Option Nat :=
  (stepByRange (BASE_START + card_suit card) BASE_END SUIT_NUM).find?
    fun i => (deskGet g.desk i).length == card_rank card

/-- `Game::get_empty_cell`. -/
def Game.get_empty_cell (g : Game) : Option Nat :=
  cell_range.find? fun i => (deskGet g.desk i).isEmpty

/-- `Game::get_empty_pile`. -/
def Game.get_empty_pile (g : Game) : Option Nat :=
  pile_range.find? fun i => (deskGet g.desk i).isEmpty

/-- `Game::count_empty_cells`. -/
def Game.count_empty_cells (g : Game) : Nat :=
  (cell_range.filter fun i => (deskGet g.desk i).isEmpty).length

/-- `Game::count_empty_piles`. -/
def Game.count_empty_piles (g : Game) : Nat :=
  (pile_range.filter fun i => (deskGet g.desk i).isEmpty).length

/-- `Game::count_solved`. -/
def Game.count_solved (g : Game) : Nat :=
  (base_range.map fun i => (deskGet g.desk i).length).sum

/-- `Game::count_unsolved`. -/
def Game.count_unsolved (g : Game) : Nat :=
  (play_range.map fun i => (deskGet g.desk i).length).sum

/-- `Game::is_done`: all cells and cascades empty. -/
def Game.is_done (g : Game) : Bool :=
  play_range.all fun i => (deskGet g.desk i).length == 0

/-- `Game::is_lock`: the card at `card_index` sits above a same-suit card of
strictly lower rank. -/
def is_lock (pile : Pile) (card_index : Nat) : Bool :=
  (List.range card_index).any fun prev_index =>
    (card_rank (pile.getD card_index 0) > card_rank (pile.getD prev_index 0)) &&
      (card_suit (pile.getD card_index 0) == card_suit (pile.getD prev_index 0))

/-- `Game::count_locks_at`. -/
def Game.count_locks_at (g : Game) (index : Nat) : Nat :=
  ((List.range' 1 ((deskGet g.desk index).length - 1)).filter
    fun ci => is_lock (deskGet g.desk index) ci).length

/-- `Game::count_locks`. -/
def Game.count_locks (g : Game) : Nat :=
  (pile_range.map fun i => g.count_locks_at i).sum

/-- `Game::estimate_path_len`: `path.len() + count_unsolved() + count_locks()`. -/
def Game.estimate_path_len (g : Game) : Nat :=
  g.path.length + g.count_unsolved + g.count_locks

/-- The scan of one `move_cards_auto` iteration: the first play spot whose top
card may be auto-promoted, with its foundation. -/
def Game.find_auto (g : Game) : Option (Nat × Nat) :=
  play_range.findSome? fun giver =>
    match (deskGet g.desk giver).getLast? with
    | none => none
    | some card =>
      if g.base_min_ranks.ge card then
        match g.get_base card with
        | some taker => some (giver, taker)
        | none => none
      else none

/-! ### Desk access lemmas -/

theorem mem_getLast? {α : Type} {l : List α} {a : α} (h : l.getLast? = some a) : a ∈ l := by
  rcases l with _ | ⟨b, t⟩
  · simp at h
  · rw [List.getLast?_eq_getLast _ (by simp)] at h
    exact (Option.some_inj.mp h) ▸ List.getLast_mem _

theorem deskGet_set_self {d : Desk} {i : Nat} (h : i < d.length) (p : Pile) :
    deskGet (d.set i p) i = p := by
  simp [deskGet, List.getD_eq_getElem?_getD, List.getElem?_set_self, h]

theorem deskGet_set_ne {d : Desk} {i j : Nat} (h : i ≠ j) (p : Pile) :
    deskGet (d.set i p) j = deskGet d j := by
  simp [deskGet, List.getD_eq_getElem?_getD, List.getElem?_set_ne h]

theorem deskGet_lt_length {d : Desk} {i : Nat} (h : deskGet d i ≠ []) : i < d.length := by
  by_contra hge
  exact h (by simp [deskGet, List.getD_eq_getElem?_getD,
    List.getElem?_eq_none (Nat.le_of_not_lt hge)])

theorem mem_play_range {j : Nat} : j ∈ play_range ↔ BASE_END ≤ j ∧ j < DESK_SIZE := by
  simp [play_range, List.mem_range'_1, BASE_END, DESK_SIZE, BASE_START, BASE_NUM,
    PILE_NUM, CELL_NUM]

theorem mem_pile_range {j : Nat} : j ∈ pile_range ↔ PILE_START ≤ j ∧ j < PILE_END := by
  simp [pile_range, List.mem_range'_1, PILE_START, PILE_END, CELL_END, CELL_START,
    BASE_END, BASE_START, BASE_NUM, CELL_NUM, PILE_NUM]

theorem mem_cell_range {j : Nat} : j ∈ cell_range ↔ CELL_START ≤ j ∧ j < CELL_END := by
  simp [cell_range, List.mem_range'_1, CELL_START, CELL_END, BASE_END, BASE_START,
    BASE_NUM, CELL_NUM]

/-- Setting a slot outside a list of indices does not change the values read
at those indices. -/
theorem map_deskGet_set_not_mem {d : Desk} {i : Nat} {l : List Nat} (h : i ∉ l) (p : Pile)
    (f : Pile → Nat) :
    l.map (fun j => f (deskGet (d.set i p) j)) = l.map fun j => f (deskGet d j) :=
  List.map_congr_left fun j hj => by
    rw [deskGet_set_ne (ne_of_mem_of_not_mem hj h).symm p]

/-- Replacing the pile at a listed slot changes the summed statistic by
exactly the difference at that slot. -/
theorem sum_map_deskGet_set {d : Desk} {l : List Nat} {i : Nat} (p : Pile) (f : Pile → Nat)
    (hmem : i ∈ l) (hnd : l.Nodup) (hi : i < d.length) :
    (l.map fun j => f (deskGet (d.set i p) j)).sum + f (deskGet d i)
      = (l.map fun j => f (deskGet d j)).sum + f p := by
  induction l with
  | nil => cases hmem
  | cons a t ih =>
    by_cases he : i = a
    · subst he
      have hnotin : i ∉ t := (List.nodup_cons.mp hnd).1
      simp only [List.map_cons, List.sum_cons, deskGet_set_self hi,
        map_deskGet_set_not_mem hnotin p f]
      omega
    · have hmemt : i ∈ t := (List.mem_cons.mp hmem).resolve_left he
      have := ih hmemt (List.nodup_cons.mp hnd).2
      simp only [List.map_cons, List.sum_cons, deskGet_set_ne he p]
      omega

theorem nodup_play_range : play_range.Nodup := List.nodup_range' _ _ _ Nat.one_pos

theorem nodup_pile_range : pile_range.Nodup := List.nodup_range' _ _ _ Nat.one_pos

/-! ### `get_base` and `find_auto` characterizations -/

theorem stepByRange_base {s : Nat} (h : s < SUIT_NUM) :
    stepByRange (BASE_START + s) BASE_END SUIT_NUM = [s] := by
  have h4 : s < 4 := h
  interval_cases s <;> rfl

theorem suit_num_pos : 0 < SUIT_NUM := by norm_num [SUIT_NUM]

theorem card_suit_lt_suit_num (c : Nat) : card_suit c < SUIT_NUM := by
  unfold card_suit
  exact Nat.mod_lt _ suit_num_pos

theorem get_base_eq (g : Game) (card : Nat) :
    g.get_base card =
      if (deskGet g.desk (card_suit card)).length = card_rank card
      then some (card_suit card) else none := by
  rw [Game.get_base, stepByRange_base (card_suit_lt_suit_num card)]
  cases hb : (deskGet g.desk (card_suit card)).length == card_rank card
  · rw [if_neg (by simpa using ne_of_beq_false hb)]
    simp [List.find?, hb]
  · rw [if_pos (eq_of_beq hb)]
    simp [List.find?, hb]

theorem get_base_some {g : Game} {card tk : Nat} (h : g.get_base card = some tk) :
    tk = card_suit card ∧ (deskGet g.desk tk).length = card_rank card := by
  rw [get_base_eq] at h
  by_cases hd : (deskGet g.desk (card_suit card)).length = card_rank card
  · simp [hd] at h; exact ⟨h.symm, h ▸ hd⟩
  · simp [hd] at h

theorem card_suit_lt (c : Nat) : card_suit c < BASE_END := by
  have := card_suit_lt_suit_num c
  unfold SUIT_NUM at this
  unfold BASE_END BASE_START BASE_NUM
  omega

theorem find_auto_some {g : Game} {gv tk : Nat} (h : g.find_auto = some (gv, tk)) :
    gv ∈ play_range ∧ ∃ c, g.card_at gv = some c ∧ g.base_min_ranks.ge c = true ∧
      g.get_base c = some tk := by
  unfold Game.find_auto at h
  obtain ⟨a, hmem, ha⟩ := List.exists_of_findSome?_eq_some h
  rcases hc : (deskGet g.desk a).getLast? with _ | c
  · rw [hc] at ha; cases ha
  · rw [hc] at ha
    have ha' : (if g.base_min_ranks.ge c = true then
        (match g.get_base c with
          | some taker => some (a, taker)
          | none => none) else none) = some (gv, tk) := ha
    by_cases hge : g.base_min_ranks.ge c = true
    · rw [if_pos hge] at ha'
      rcases hb : g.get_base c with _ | t
      · rw [hb] at ha'; cases ha'
      · rw [hb] at ha'
        have hpair := Option.some_inj.mp ha'
        have h1 : a = gv := congrArg Prod.fst hpair
        have h2 : t = tk := congrArg Prod.snd hpair
        subst h1; subst h2
        exact ⟨hmem, c, hc, hge, hb⟩
    · rw [if_neg hge] at ha'; cases ha'

/-- One auto-promotion strictly decreases the number of unsolved cards. -/
theorem count_unsolved_move_card {g : Game} {gv tk : Nat} (hgv : gv ∈ play_range)
    (htk : tk < BASE_END) (hne : deskGet g.desk gv ≠ []) :
    (g.move_card gv tk).count_unsolved + 1 = g.count_unsolved := by
  rcases hc : (deskGet g.desk gv).getLast? with _ | c
  · exact absurd (List.getLast?_eq_none_iff.mp hc) hne
  · have hlt : gv < g.desk.length := deskGet_lt_length hne
    have htk_not : tk ∉ play_range := by
      rw [mem_play_range]; omega
    unfold Game.move_card Game.count_unsolved
    rw [hc]
    simp only
    rw [map_deskGet_set_not_mem htk_not _ List.length]
    have := sum_map_deskGet_set (l := play_range) ((deskGet g.desk gv).dropLast)
      List.length hgv nodup_play_range hlt
    have hlen : (deskGet g.desk gv).length ≠ 0 := by
      intro h0; exact hne (List.eq_nil_of_length_eq_zero h0)
    simp only [List.length_dropLast] at this
    omega

/-! ### `move_cards_auto` -/

/-- Promoting via an auto move strictly decreases the unsolved count. -/
theorem count_unsolved_find_auto {g : Game} {gv tk : Nat} (h : g.find_auto = some (gv, tk)) :
    (g.move_card gv tk).count_unsolved < g.count_unsolved := by
  obtain ⟨hmem, c, hc, _, hb⟩ := find_auto_some h
  have htk : tk < BASE_END := (get_base_some hb).1 ▸ card_suit_lt c
  have hne : deskGet g.desk gv ≠ [] := by
    intro he; rw [Game.card_at, he] at hc; cases hc
  have := count_unsolved_move_card hmem htk hne
  omega

/-- The `Game::move_cards_auto` while-loop with the remaining iteration count
explicit (each promotion lowers `count_unsolved`, so `count_unsolved + 1`
iterations always suffice). -/
def autoFuel : Nat → Game → Game × Nat
  | 0, g => (g, 0)
  | n + 1, g =>
    match g.find_auto with
    | none => (g, 0)
    | some (giver, taker) =>
      let r := autoFuel n (g.move_card giver taker)
      (r.1, r.2 + 1)

/-- `Game::move_cards_auto`: repeatedly promote the first eligible card until
no auto move remains; returns the final game and the number of promotions. -/
def Game.move_cards_auto (g : Game) : Game × Nat :=
  autoFuel (g.count_unsolved + 1) g

theorem autoFuel_irrel : ∀ (n m : Nat) (g : Game), g.count_unsolved < n →
    g.count_unsolved < m → autoFuel n g = autoFuel m g := by
  intro n
  induction n with
  | zero => intro m g h; omega
  | succ n ih =>
    intro m g hn hm
    rcases m with _ | m
    · omega
    · show autoFuel (n + 1) g = autoFuel (m + 1) g
      unfold autoFuel
      rcases hf : g.find_auto with _ | ⟨gv, tk⟩
      · rfl
      · have hdec := count_unsolved_find_auto hf
        show ((autoFuel n (g.move_card gv tk)).1, (autoFuel n (g.move_card gv tk)).2 + 1)
          = ((autoFuel m (g.move_card gv tk)).1, (autoFuel m (g.move_card gv tk)).2 + 1)
        rw [ih m (g.move_card gv tk) (by omega) (by omega)]

/-- `move_cards_auto` satisfies the one-step unfolding of the Rust loop. -/
theorem move_cards_auto_eq (g : Game) :
    g.move_cards_auto =
      match g.find_auto with
      | none => (g, 0)
      | some (giver, taker) =>
        ((g.move_card giver taker).move_cards_auto.1,
          (g.move_card giver taker).move_cards_auto.2 + 1) := by
  unfold Game.move_cards_auto
  conv_lhs => rw [autoFuel]
  rcases hf : g.find_auto with _ | ⟨gv, tk⟩
  · rfl
  · have hdec := count_unsolved_find_auto hf
    show ((autoFuel g.count_unsolved (g.move_card gv tk)).1,
        (autoFuel g.count_unsolved (g.move_card gv tk)).2 + 1)
      = ((autoFuel ((g.move_card gv tk).count_unsolved + 1) (g.move_card gv tk)).1,
        (autoFuel ((g.move_card gv tk).count_unsolved + 1) (g.move_card gv tk)).2 + 1)
    rw [autoFuel_irrel (g.count_unsolved) ((g.move_card gv tk).count_unsolved + 1)
      (g.move_card gv tk) (by omega) (by omega)]

/-! ### Undo exactness -/

theorem desk_ext {d1 d2 : Desk} (hl : d1.length = d2.length)
    (h : ∀ i, deskGet d1 i = deskGet d2 i) : d1 = d2 := by
  apply List.ext_getElem hl
  intro i h1 h2
  have hi := h i
  rwa [deskGet, deskGet, List.getD_eq_getElem _ _ h1, List.getD_eq_getElem _ _ h2] at hi

theorem set_deskGet_self {d : Desk} {i : Nat} : d.set i (deskGet d i) = d := by
  by_cases h : i < d.length
  · apply desk_ext (by simp)
    intro j
    by_cases hj : i = j
    · subst hj; rw [deskGet_set_self (by simpa using h)]
    · rw [deskGet_set_ne hj]
  · rw [List.set_eq_of_length_le (Nat.le_of_not_lt h)]

theorem length_move_card (g : Game) (gv tk : Nat) :
    (g.move_card gv tk).desk.length = g.desk.length := by
  unfold Game.move_card
  cases (deskGet g.desk gv).getLast? <;> simp

/-- `backward` undoes `move_card` exactly (the Rust comment: "move destination
=> source"). -/
theorem undo1_move_card {g : Game} {gv tk c : Nat}
    (hc : (deskGet g.desk gv).getLast? = some c) (htk : tk < g.desk.length) :
    (g.move_card gv tk).undo1 = g := by
  have hne : deskGet g.desk gv ≠ [] := by
    intro he; rw [he] at hc; cases hc
  have hgv : gv < g.desk.length := deskGet_lt_length hne
  have hrest : (deskGet g.desk gv).dropLast ++ [c] = deskGet g.desk gv := by
    have h1 : c = (deskGet g.desk gv).getLast hne := by
      rw [List.getLast?_eq_getLast _ hne] at hc
      exact (Option.some_inj.mp hc).symm
    rw [h1]
    exact List.dropLast_append_getLast hne
  unfold Game.move_card
  rw [hc]
  unfold Game.undo1
  simp only [List.getLast?_concat, List.dropLast_concat]
  by_cases he : gv = tk
  · subst he
    have h1 : deskGet (g.desk.set gv (deskGet g.desk gv).dropLast) gv
        = (deskGet g.desk gv).dropLast := deskGet_set_self hgv _
    rw [h1]
    have h2 : deskGet ((g.desk.set gv (deskGet g.desk gv).dropLast).set gv
        ((deskGet g.desk gv).dropLast ++ [c])) gv
        = (deskGet g.desk gv).dropLast ++ [c] := deskGet_set_self (by simpa using hgv) _
    rw [h2]
    simp only [List.getLast?_concat, List.dropLast_concat, List.set_set]
    rw [deskGet_set_self (by simpa using hgv), hrest, set_deskGet_self]
  · have h1 : deskGet (g.desk.set gv (deskGet g.desk gv).dropLast) tk
        = deskGet g.desk tk := deskGet_set_ne he _
    rw [h1]
    have h2 : deskGet ((g.desk.set gv (deskGet g.desk gv).dropLast).set tk
        (deskGet g.desk tk ++ [c])) tk
        = deskGet g.desk tk ++ [c] := deskGet_set_self (by simpa using htk) _
    rw [h2]
    simp only [List.getLast?_concat, List.dropLast_concat, List.set_set]
    have h3 : ((g.desk.set gv (deskGet g.desk gv).dropLast).set tk (deskGet g.desk tk))
        = g.desk.set gv (deskGet g.desk gv).dropLast := by
      rw [← deskGet_set_ne he (deskGet g.desk gv).dropLast, set_deskGet_self]
    rw [h3]
    have h4 : deskGet (g.desk.set gv (deskGet g.desk gv).dropLast) gv
        = (deskGet g.desk gv).dropLast := deskGet_set_self hgv _
    rw [h4, List.set_set, hrest, set_deskGet_self]

theorem backwardFuel_of_le {g : Game} {mark : Nat} (h : g.path.length ≤ mark) :
    ∀ n, backwardFuel n g mark = g := by
  intro n
  cases n with
  | zero => rfl
  | succ n =>
    unfold backwardFuel
    rw [if_neg (by omega)]

theorem backward_of_le {g : Game} {mark : Nat} (h : g.path.length ≤ mark) :
    g.backward mark = g := backwardFuel_of_le h _

theorem backward_of_gt {g : Game} {mark : Nat} (h : g.path.length > mark) :
    g.backward mark = g.undo1.backward mark := by
  have hne : g.path ≠ [] := by
    intro he; rw [he] at h; exact absurd h (by simp)
  have hlen : g.undo1.path.length = g.path.length - 1 := undo1_path_length g hne
  unfold Game.backward
  rw [hlen]
  have hsucc : backwardFuel g.path.length g mark
      = backwardFuel ((g.path.length - 1) + 1) g mark := by
    congr 1
    omega
  rw [hsucc]
  show (if g.path.length > mark then backwardFuel (g.path.length - 1) g.undo1 mark else g)
    = backwardFuel (g.path.length - 1) g.undo1 mark
  exact if_pos h

theorem backward_backward (g : Game) {k k' : Nat} (h : k ≤ k') :
    (g.backward k').backward k = g.backward k := by
  by_cases hgt : g.path.length > k'
  · have hne : g.path ≠ [] := by
      intro he; rw [he] at hgt; exact absurd hgt (by simp)
    have hdec : g.undo1.path.length < g.path.length := by
      rw [undo1_path_length g hne]; omega
    have hk : g.path.length > k := by omega
    rw [backward_of_gt hgt, backward_of_gt hk]
    exact backward_backward g.undo1 h
  · rw [backward_of_le (Nat.le_of_not_lt hgt)]
termination_by g.path.length

/-- Executability of a path, move by move: each giver pile is nonempty and
both spots index into the desk.  (Rust panics on any violation.) -/
def replayable (g : Game) : Path → Bool
  | [] => true
  | mv :: p =>
    !(deskGet g.desk mv.giver).isEmpty && decide (mv.giver < g.desk.length) &&
      decide (mv.taker < g.desk.length) &&
      replayable (g.move_card mv.giver mv.taker) p

theorem forward_cons (g : Game) (mv : Move) (p : Path) :
    g.forward (mv :: p) = (g.move_card mv.giver mv.taker).forward p := rfl

theorem forward_append (g : Game) (p q : Path) :
    g.forward (p ++ q) = (g.forward p).forward q := by
  unfold Game.forward
  exact List.foldl_append ..

theorem replayable_cons {g : Game} {mv : Move} {p : Path}
    (h : replayable g (mv :: p) = true) :
    deskGet g.desk mv.giver ≠ [] ∧ mv.giver < g.desk.length ∧ mv.taker < g.desk.length ∧
      replayable (g.move_card mv.giver mv.taker) p = true := by
  have h' := h
  unfold replayable at h'
  simp only [Bool.and_eq_true, Bool.not_eq_true', decide_eq_true_eq] at h'
  refine ⟨?_, h'.1.1.2, h'.1.2, h'.2⟩
  intro he
  rw [he] at h'
  simp at h'

theorem path_move_card {g : Game} {gv tk : Nat} (hne : deskGet g.desk gv ≠ []) :
    (g.move_card gv tk).path = g.path ++ [⟨gv, tk⟩] := by
  rcases hc : (deskGet g.desk gv).getLast? with _ | c
  · exact absurd (List.getLast?_eq_none_iff.mp hc) hne
  · unfold Game.move_card
    rw [hc]

theorem forward_path {g : Game} {p : Path} (h : replayable g p = true) :
    (g.forward p).path = g.path ++ p := by
  induction p generalizing g with
  | nil => simp [Game.forward]
  | cons mv t ih =>
    obtain ⟨hne, _, _, hrest⟩ := replayable_cons h
    rw [forward_cons, ih hrest, path_move_card hne]
    simp

theorem backward_forward {g : Game} {p : Path} (h : replayable g p = true) :
    (g.forward p).backward g.path.length = g := by
  induction p generalizing g with
  | nil => exact backward_of_le (Nat.le_refl _)
  | cons mv t ih =>
    obtain ⟨hne, _, htk, hrest⟩ := replayable_cons h
    rcases hc : (deskGet g.desk mv.giver).getLast? with _ | c
    · exact absurd (List.getLast?_eq_none_iff.mp hc) hne
    · have hlen : (g.move_card mv.giver mv.taker).path.length = g.path.length + 1 := by
        rw [path_move_card hne]; simp
      have ihh := ih hrest
      have hcomp := @backward_backward ((g.move_card mv.giver mv.taker).forward t)
        g.path.length ((g.move_card mv.giver mv.taker).path.length) (by omega)
      rw [ihh] at hcomp
      rw [forward_cons, ← hcomp]
      rw [backward_of_gt (by omega)]
      rw [undo1_move_card hc htk]
      exact backward_of_le (Nat.le_refl _)

theorem replayable_append {g : Game} {p q : Path}
    (h : replayable g (p ++ q) = true) :
    replayable g p = true ∧ replayable (g.forward p) q = true := by
  induction p generalizing g with
  | nil => exact ⟨rfl, h⟩
  | cons mv t ih =>
    rw [List.cons_append] at h
    obtain ⟨hne, hgv, htk, hrest⟩ := replayable_cons h
    obtain ⟨h1, h2⟩ := ih hrest
    refine ⟨?_, h2⟩
    unfold replayable
    simp only [Bool.and_eq_true, Bool.not_eq_true', decide_eq_true_eq]
    exact ⟨⟨⟨by simpa [List.isEmpty_iff] using hne, hgv⟩, htk⟩, h1⟩

/-- C3: for every initial deal, every move sequence `P` replayable from it and
every `k ≤ |P|`, replaying `P` and then calling `backward(k)` yields a `Game`
(both the 16-stack Desk and the Path) identical to replaying only the first
`k` moves of `P`; in particular `backward` is the exact inverse of
`move_card`. -/
theorem backward_replay_prefix (cards : List Nat) (P : Path) (k : Nat)
    (hrep : replayable (Game.new.deal cards) P = true) (hk : k ≤ P.length) :
    ((Game.new.deal cards).forward P).backward k
      = (Game.new.deal cards).forward (P.take k) := by
  have hsplit : P.take k ++ P.drop k = P := List.take_append_drop k P
  have hrep' : replayable (Game.new.deal cards) (P.take k ++ P.drop k) = true := by
    rw [hsplit]; exact hrep
  obtain ⟨h1, h2⟩ := replayable_append hrep'
  have hpath0 : (Game.new.deal cards).path = [] := rfl
  have hpath : ((Game.new.deal cards).forward (P.take k)).path = P.take k := by
    rw [forward_path h1, hpath0, List.nil_append]
  have hlen : ((Game.new.deal cards).forward (P.take k)).path.length = k := by
    rw [hpath, List.length_take]
    omega
  calc ((Game.new.deal cards).forward P).backward k
      = (((Game.new.deal cards).forward (P.take k)).forward (P.drop k)).backward k := by
        rw [← forward_append, hsplit]
    _ = (Game.new.deal cards).forward (P.take k) := by
        have hb := backward_forward h2
        rw [hlen] at hb
        exact hb

/-- Witness for `backward_replay_prefix` at a concrete deal, path, and prefix
length. -/
theorem backward_replay_prefix_witness :
    replayable (Game.new.deal [0, 1, 2]) [⟨8, 4⟩, ⟨4, 9⟩] = true ∧
      (1 : Nat) ≤ ([⟨8, 4⟩, ⟨4, 9⟩] : Path).length ∧
      ((Game.new.deal [0, 1, 2]).forward [⟨8, 4⟩, ⟨4, 9⟩]).backward 1
        = (Game.new.deal [0, 1, 2]).forward (([⟨8, 4⟩, ⟨4, 9⟩] : Path).take 1) :=
  ⟨by decide, by decide,
    backward_replay_prefix [0, 1, 2] [⟨8, 4⟩, ⟨4, 9⟩] 1 (by decide) (by decide)⟩

/-! ### Card conservation -/

/-- The multiset of cards across all 16 stacks of the desk. -/
def cardBag (g : Game) : Multiset Nat := (g.desk.flatten : Multiset Nat)

theorem length_undo1 (g : Game) : g.undo1.desk.length = g.desk.length := by
  unfold Game.undo1
  cases hl : g.path.getLast? with
  | none => rfl
  | some mv => cases hc : (deskGet g.desk mv.taker).getLast? <;> simp [hc]

theorem length_backwardFuel : ∀ (n : Nat) (g : Game) (mark : Nat),
    (backwardFuel n g mark).desk.length = g.desk.length := by
  intro n
  induction n with
  | zero => intro g mark; rfl
  | succ n ih =>
    intro g mark
    unfold backwardFuel
    by_cases h : g.path.length > mark
    · rw [if_pos h, ih, length_undo1]
    · rw [if_neg h]

theorem length_forward : ∀ (p : Path) (g : Game),
    (g.forward p).desk.length = g.desk.length := by
  intro p
  induction p with
  | nil => intro g; rfl
  | cons mv t ih =>
    intro g
    rw [forward_cons, ih, length_move_card]

theorem coe_flatten_set : ∀ (d : Desk) (i : Nat), i < d.length → ∀ (p : Pile),
    ((d.set i p).flatten : Multiset Nat) + (deskGet d i : Multiset Nat)
      = (d.flatten : Multiset Nat) + (p : Multiset Nat) := by
  intro d
  induction d with
  | nil => intro i hi; simp at hi
  | cons q t ih =>
    intro i hi p
    cases i with
    | zero =>
      simp only [List.set_cons_zero, List.flatten_cons, deskGet, List.getD_cons_zero,
        ← Multiset.coe_add]
      abel
    | succ i =>
      have hi' : i < t.length := by simpa using hi
      have h := ih i hi' p
      simp only [List.set_cons_succ, List.flatten_cons, deskGet, List.getD_cons_succ,
        ← Multiset.coe_add]
      simp only [deskGet] at h
      rw [add_assoc, add_assoc, h]


theorem coe_dropLast_concat {p : Pile} {c : Nat}
    (hc : p.getLast? = some c) :
    (p : Multiset Nat) = (p.dropLast : Multiset Nat) + ([c] : List Nat) := by
  have hne : p ≠ [] := by
    intro he; rw [he] at hc; cases hc
  have h1 : c = p.getLast hne := by
    rw [List.getLast?_eq_getLast _ hne] at hc
    exact (Option.some_inj.mp hc).symm
  conv_lhs => rw [← List.dropLast_append_getLast hne]
  rw [← Multiset.coe_add, h1]

/-- Popping a card at one slot and pushing it at another slot keeps the
multiset of all desk cards. -/
theorem bag_pop_push {d : Desk} {gv tk c : Nat} (htk : tk < d.length)
    (hc : (deskGet d gv).getLast? = some c) :
    (((d.set gv (deskGet d gv).dropLast).set tk
      (deskGet (d.set gv (deskGet d gv).dropLast) tk ++ [c])).flatten : Multiset Nat)
      = (d.flatten : Multiset Nat) := by
  have hne : deskGet d gv ≠ [] := by
    intro he; rw [he] at hc; cases hc
  have hgv : gv < d.length := deskGet_lt_length hne
  have h1 := coe_flatten_set d gv hgv (deskGet d gv).dropLast
  have h2 := coe_flatten_set (d.set gv (deskGet d gv).dropLast) tk
    (by simpa using htk)
    (deskGet (d.set gv (deskGet d gv).dropLast) tk ++ [c])
  rw [← Multiset.coe_add (deskGet (d.set gv (deskGet d gv).dropLast) tk) [c]] at h2
  have h3 := coe_dropLast_concat hc
  have e1 : (((d.set gv (deskGet d gv).dropLast).set tk
      (deskGet (d.set gv (deskGet d gv).dropLast) tk ++ [c])).flatten : Multiset Nat)
      = ((d.set gv (deskGet d gv).dropLast).flatten : Multiset Nat) + ([c] : List Nat) := by
    rw [show ((d.set gv (deskGet d gv).dropLast).flatten : Multiset Nat)
        + ((deskGet (d.set gv (deskGet d gv).dropLast) tk : Multiset Nat) + ([c] : List Nat))
        = (((d.set gv (deskGet d gv).dropLast).flatten : Multiset Nat) + ([c] : List Nat))
          + (deskGet (d.set gv (deskGet d gv).dropLast) tk : Multiset Nat) from by abel] at h2
    exact add_right_cancel h2
  have e2 : (d.flatten : Multiset Nat)
      = ((d.set gv (deskGet d gv).dropLast).flatten : Multiset Nat) + ([c] : List Nat) := by
    rw [h3] at h1
    rw [show ((d.set gv (deskGet d gv).dropLast).flatten : Multiset Nat)
        + (((deskGet d gv).dropLast : Multiset Nat) + ([c] : List Nat))
        = (((d.set gv (deskGet d gv).dropLast).flatten : Multiset Nat) + ([c] : List Nat))
          + ((deskGet d gv).dropLast : Multiset Nat) from by abel] at h1
    exact (add_right_cancel h1).symm
  rw [e1]
  exact e2.symm

/-- `move_card` preserves the card multiset (given an in-range taker). -/
theorem cardBag_move_card {g : Game} (gv : Nat) {tk : Nat} (htk : tk < g.desk.length) :
    cardBag (g.move_card gv tk) = cardBag g := by
  rcases hc : (deskGet g.desk gv).getLast? with _ | c
  · unfold Game.move_card
    rw [hc]
  · unfold Game.move_card cardBag
    rw [hc]
    exact bag_pop_push htk hc

/-- `undo1` preserves the card multiset (given an in-range giver on the last
path move). -/
theorem cardBag_undo1 {g : Game}
    (hg : ∀ mv ∈ g.path, mv.giver < g.desk.length) :
    cardBag g.undo1 = cardBag g := by
  unfold Game.undo1
  rcases hl : g.path.getLast? with _ | mv
  · rfl
  · rcases hc : (deskGet g.desk mv.taker).getLast? with _ | c
    · simp only [hc]
      rfl
    · simp only [hc]
      unfold cardBag
      exact bag_pop_push (hg mv (mem_getLast? hl)) hc

theorem path_undo1_subset {g : Game} {mv : Move} (h : mv ∈ g.undo1.path) :
    mv ∈ g.path := by
  unfold Game.undo1 at h
  rcases hl : g.path.getLast? with _ | m
  · rw [hl] at h; exact h
  · rw [hl] at h
    rcases hc : (deskGet g.desk m.taker).getLast? with _ | c <;> simp only [hc] at h <;>
      exact (List.dropLast_sublist g.path).subset h

theorem cardBag_backwardFuel : ∀ (n : Nat) (g : Game) (mark : Nat),
    (∀ mv ∈ g.path, mv.giver < g.desk.length) →
    cardBag (backwardFuel n g mark) = cardBag g := by
  intro n
  induction n with
  | zero => intro g mark _; rfl
  | succ n ih =>
    intro g mark hg
    unfold backwardFuel
    by_cases h : g.path.length > mark
    · rw [if_pos h]
      rw [ih g.undo1 mark (fun mv hm => (length_undo1 g).symm ▸ hg mv (path_undo1_subset hm))]
      exact cardBag_undo1 hg
    · rw [if_neg h]

theorem cardBag_backward {g : Game} (mark : Nat)
    (hg : ∀ mv ∈ g.path, mv.giver < g.desk.length) :
    cardBag (g.backward mark) = cardBag g :=
  cardBag_backwardFuel _ g mark hg

theorem cardBag_forward : ∀ (p : Path) (g : Game),
    (∀ mv ∈ p, mv.taker < g.desk.length) →
    cardBag (g.forward p) = cardBag g := by
  intro p
  induction p with
  | nil => intro g _; rfl
  | cons mv t ih =>
    intro g hp
    rw [forward_cons]
    rw [ih _ (fun m hm => (length_move_card g mv.giver mv.taker).symm ▸ hp m
      (List.mem_cons_of_mem _ hm))]
    exact cardBag_move_card _ (hp mv (List.mem_cons_self _ _))

theorem cardBag_autoFuel : ∀ (n : Nat) (g : Game), BASE_END ≤ g.desk.length →
    cardBag (autoFuel n g).1 = cardBag g := by
  intro n
  induction n with
  | zero => intro g _; rfl
  | succ n ih =>
    intro g hlen
    unfold autoFuel
    rcases hf : g.find_auto with _ | ⟨gv, tk⟩
    · rfl
    · obtain ⟨_, c, _, _, hb⟩ := find_auto_some hf
      have htk : tk < g.desk.length :=
        Nat.lt_of_lt_of_le ((get_base_some hb).1 ▸ card_suit_lt c) hlen
      show cardBag (autoFuel n (g.move_card gv tk)).1 = cardBag g
      rw [ih _ ((length_move_card g gv tk).symm ▸ hlen)]
      exact cardBag_move_card _ htk

theorem cardBag_move_cards_auto {g : Game} (hlen : BASE_END ≤ g.desk.length) :
    cardBag g.move_cards_auto.1 = cardBag g :=
  cardBag_autoFuel _ g hlen

theorem length_dealAux : ∀ (cards : List Nat) (d : Desk) (i : Nat),
    (dealAux d i cards).length = d.length := by
  intro cards
  induction cards with
  | nil => intro d i; rfl
  | cons c rest ih =>
    intro d i
    unfold dealAux
    rw [ih, List.length_set]

theorem cardBag_dealAux : ∀ (cards : List Nat) (d : Desk) (i : Nat),
    d.length = DESK_SIZE →
    ((dealAux d i cards).flatten : Multiset Nat)
      = (d.flatten : Multiset Nat) + (cards : Multiset Nat) := by
  intro cards
  induction cards with
  | nil => intro d i _; simp [dealAux]
  | cons c rest ih =>
    intro d i hd
    have hidx : PILE_START + i % PILE_NUM < d.length := by
      have : i % PILE_NUM < PILE_NUM := Nat.mod_lt _ (by norm_num [PILE_NUM])
      simp only [hd, DESK_SIZE, PILE_START, CELL_END, CELL_START, BASE_END, BASE_START,
        BASE_NUM, CELL_NUM, PILE_NUM] at *
      omega
    unfold dealAux
    rw [ih _ _ (by rw [List.length_set]; exact hd)]
    have hset := coe_flatten_set d (PILE_START + i % PILE_NUM) hidx
      (deskGet d (PILE_START + i % PILE_NUM) ++ [c])
    rw [← Multiset.coe_add (deskGet d (PILE_START + i % PILE_NUM)) [c]] at hset
    have e1 : ((d.set (PILE_START + i % PILE_NUM)
        (deskGet d (PILE_START + i % PILE_NUM) ++ [c])).flatten : Multiset Nat)
        = (d.flatten : Multiset Nat) + ([c] : List Nat) := by
      rw [show (d.flatten : Multiset Nat)
          + ((deskGet d (PILE_START + i % PILE_NUM) : Multiset Nat) + ([c] : List Nat))
          = ((d.flatten : Multiset Nat) + ([c] : List Nat))
            + (deskGet d (PILE_START + i % PILE_NUM) : Multiset Nat) from by abel] at hset
      exact add_right_cancel hset
    rw [e1]
    have : ((c :: rest : List Nat) : Multiset Nat) = ([c] : List Nat) + (rest : Multiset Nat) := by
      rw [Multiset.coe_add]
      rfl
    rw [this]
    abel

/-- C7: after dealing the 52-card deck the multiset of cards across all 16
stacks of the Desk is exactly that deck, and the multiset is preserved by
`move_card`, `backward`, `move_cards_auto` and `set_path` (with the in-range
spot conditions that Rust enforces by panicking): no card is ever created,
destroyed or duplicated. -/
theorem card_multiset_conservation (cards : List Nat) (g : Game) (gv tk mark : Nat)
    (p : Path) :
    (cards.Perm (List.range CARD_NUM) →
      cardBag (Game.new.deal cards) = ((List.range CARD_NUM : List Nat) : Multiset Nat)) ∧
    (tk < g.desk.length → cardBag (g.move_card gv tk) = cardBag g) ∧
    ((∀ mv ∈ g.path, mv.giver < g.desk.length) →
      cardBag (g.backward mark) = cardBag g) ∧
    (BASE_END ≤ g.desk.length → cardBag g.move_cards_auto.1 = cardBag g) ∧
    ((∀ mv ∈ g.path, mv.giver < g.desk.length) → (∀ mv ∈ p, mv.taker < g.desk.length) →
      cardBag (g.set_path p) = cardBag g) := by
  refine ⟨?_, fun h => cardBag_move_card gv h, fun h => cardBag_backward mark h,
    fun h => cardBag_move_cards_auto h, ?_⟩
  · intro hperm
    unfold Game.deal cardBag Game.new
    simp only
    rw [cardBag_dealAux cards _ 0 (by simp [List.length_replicate])]
    have hbase : (((List.replicate DESK_SIZE ([] : Pile)).map fun _ => ([] : Pile)).flatten :
        List Nat) = [] := by
      simp
    rw [hbase]
    have : ((cards : List Nat) : Multiset Nat) = ((List.range CARD_NUM : List Nat) : Multiset Nat) :=
      Multiset.coe_eq_coe.mpr hperm
    rw [this]
    simp
  · intro hg hp
    unfold Game.set_path
    rw [cardBag_forward p g.rewind (by
      intro mv hm
      have := length_backwardFuel g.path.length g 0
      unfold Game.rewind Game.backward
      rw [this]
      exact hp mv hm)]
    exact cardBag_backward 0 hg

/-- Witness for `card_multiset_conservation` on the sorted 52-card deck. -/
theorem card_multiset_conservation_witness :
    cardBag (Game.new.deal (List.range CARD_NUM))
        = ((List.range CARD_NUM : List Nat) : Multiset Nat) ∧
      cardBag ((Game.new.deal (List.range CARD_NUM)).move_card 8 4)
        = cardBag (Game.new.deal (List.range CARD_NUM)) ∧
      cardBag ((Game.new.deal (List.range CARD_NUM)).backward 0)
        = cardBag (Game.new.deal (List.range CARD_NUM)) ∧
      cardBag (Game.new.deal (List.range CARD_NUM)).move_cards_auto.1
        = cardBag (Game.new.deal (List.range CARD_NUM)) ∧
      cardBag ((Game.new.deal (List.range CARD_NUM)).set_path [⟨8, 4⟩])
        = cardBag (Game.new.deal (List.range CARD_NUM)) := by
  have h := card_multiset_conservation (List.range CARD_NUM)
    (Game.new.deal (List.range CARD_NUM)) 8 4 0 [⟨8, 4⟩]
  exact ⟨h.1 (List.Perm.refl _), h.2.1 (by decide), h.2.2.1 (by decide),
    h.2.2.2.1 (by decide), h.2.2.2.2 (by decide) (by decide)⟩

/-! ### Well-formed reachable states -/

/-- Invariants of reachable boards (spec §3, "Desk"): 16 slots, each
foundation holds exactly the consecutive ranks of its own suit from the ace
up, every card is one of the 52 real cards, and no card occurs twice. -/
def WellFormed (g : Game) : Prop :=
  g.desk.length = DESK_SIZE ∧
  (∀ s ∈ base_range, deskGet g.desk s
      = (List.range (deskGet g.desk s).length).map fun r => to_card r s) ∧
  (∀ c ∈ g.desk.flatten, c < CARD_NUM) ∧
  g.desk.flatten.Nodup

instance (g : Game) : Decidable (WellFormed g) := by
  unfold WellFormed
  exact inferInstance

theorem mem_flatten_of_deskGet {g : Game} {i c : Nat} (hc : c ∈ deskGet g.desk i) :
    c ∈ g.desk.flatten := by
  have hlt : i < g.desk.length := deskGet_lt_length (by
    intro he; rw [he] at hc; cases hc)
  refine List.mem_flatten.mpr ⟨deskGet g.desk i, ?_, hc⟩
  rw [deskGet, List.getD_eq_getElem _ _ hlt]
  exact List.getElem_mem hlt

/-- Real cards decompose as `to_card (card_rank c) (card_suit c)`. -/
theorem to_card_decomp {c : Nat} (h : c < CARD_NUM) :
    to_card (card_rank c) (card_suit c) = c := by
  unfold to_card card_rank card_suit CARD_NUM RANK_NUM SUIT_NUM at *
  omega

theorem mem_base_range {j : Nat} : j ∈ base_range ↔ j < BASE_NUM := by
  simp [base_range, List.mem_range'_1, BASE_START, BASE_NUM]

/-- Under well-formedness, foundation depths never exceed `RANK_NUM`. -/
theorem base_depth_le {g : Game} (hwf : WellFormed g) {s : Nat} (hs : s < BASE_NUM) :
    (deskGet g.desk s).length ≤ RANK_NUM := by
  obtain ⟨hlen, hbase, hlt, _⟩ := hwf
  by_contra hgt
  have h13 : RANK_NUM < (deskGet g.desk s).length := Nat.lt_of_not_le hgt
  have hmem : to_card RANK_NUM s ∈ deskGet g.desk s := by
    rw [hbase s (mem_base_range.mpr hs)]
    exact List.mem_map.mpr ⟨RANK_NUM, List.mem_range.mpr h13, rfl⟩
  have := hlt _ (mem_flatten_of_deskGet hmem)
  unfold to_card CARD_NUM RANK_NUM SUIT_NUM at this
  omega

/-- `base_min_ranks` computed: minima of the black (0, 2) and red (1, 3)
foundation depths, capped at `RANK_NUM` by the fold's initial value. -/
theorem base_min_ranks_eq (g : Game) :
    g.base_min_ranks =
      { blacks := min (min RANK_NUM (deskGet g.desk 0).length) (deskGet g.desk 2).length,
        reds := min (min RANK_NUM (deskGet g.desk 1).length) (deskGet g.desk 3).length } :=
  rfl

/-- The claim-side safety bound: the minimum foundation depth among the two
opposite-color suits. -/
def oppMinDepth (g : Game) (c : Nat) : Nat :=
  if is_card_black c then min (deskGet g.desk 1).length (deskGet g.desk 3).length
  else min (deskGet g.desk 0).length (deskGet g.desk 2).length

/-- Under well-formedness the Rust `BaseRanks::ge` test is exactly the spec's
"rank does not exceed 1 + minimum opposite-color foundation depth". -/
theorem ge_iff_oppMinDepth {g : Game} (hwf : WellFormed g) (c : Nat) :
    g.base_min_ranks.ge c = true ↔ card_rank c ≤ 1 + oppMinDepth g c := by
  have h0 := base_depth_le hwf (s := 0) (by norm_num [BASE_NUM])
  have h1 := base_depth_le hwf (s := 1) (by norm_num [BASE_NUM])
  have h2 := base_depth_le hwf (s := 2) (by norm_num [BASE_NUM])
  have h3 := base_depth_le hwf (s := 3) (by norm_num [BASE_NUM])
  rw [base_min_ranks_eq]
  unfold BaseRanks.ge BaseRanks.next_rank oppMinDepth
  cases hb : is_card_black c <;>
    simp only [hb, if_true, if_false, Bool.false_eq_true, decide_eq_true_eq, ge_iff_le] <;>
    omega

/-- Under well-formedness, a successful `find_auto` scan returns a play spot
whose top card satisfies the spec's two auto-promotion conditions, and the
taker is that card's own foundation. -/
theorem find_auto_some_spec {g : Game} (hwf : WellFormed g) {gv tk : Nat}
    (h : g.find_auto = some (gv, tk)) :
    gv ∈ play_range ∧ ∃ c, g.card_at gv = some c ∧
      card_rank c ≤ 1 + oppMinDepth g c ∧
      (deskGet g.desk (card_suit c)).length = card_rank c ∧ tk = card_suit c := by
  obtain ⟨hmem, c, hc, hge, hb⟩ := find_auto_some h
  obtain ⟨htk, hdepth⟩ := get_base_some hb
  exact ⟨hmem, c, hc, (ge_iff_oppMinDepth hwf c).mp hge, htk ▸ hdepth, htk⟩

/-- Under well-formedness, a failed `find_auto` scan means no play spot holds
a top card meeting the spec's auto-promotion conditions. -/
theorem find_auto_none_spec {g : Game} (hwf : WellFormed g)
    (h : g.find_auto = none) :
    ∀ gv ∈ play_range, ∀ c, g.card_at gv = some c →
      ¬(card_rank c ≤ 1 + oppMinDepth g c ∧
        (deskGet g.desk (card_suit c)).length = card_rank c) := by
  intro gv hgv c hc ⟨hsafe, hdepth⟩
  unfold Game.find_auto at h
  rw [List.findSome?_eq_none_iff] at h
  have h1 := h gv hgv
  rw [Game.card_at] at hc
  rw [hc] at h1
  have h2 : (if g.base_min_ranks.ge c = true then
      (match g.get_base c with
        | some taker => some (gv, taker)
        | none => none) else none) = none := h1
  rw [if_pos ((ge_iff_oppMinDepth hwf c).mpr hsafe)] at h2
  rw [get_base_eq, if_pos hdepth] at h2
  cases h2

/-- An auto promotion preserves well-formedness. -/
theorem wellFormed_auto_step {g : Game} (hwf : WellFormed g) {gv tk : Nat}
    (h : g.find_auto = some (gv, tk)) :
    WellFormed (g.move_card gv tk) := by
  obtain ⟨hgv, c, hc, _, hdepth, htkeq⟩ := find_auto_some_spec hwf h
  obtain ⟨hlen, hbase, hlt, hnd⟩ := hwf
  rw [Game.card_at] at hc
  rw [← htkeq] at hdepth
  have hne : deskGet g.desk gv ≠ [] := by
    intro he; rw [he] at hc; cases hc
  have hgvlt : gv < g.desk.length := deskGet_lt_length hne
  have htk4 : tk < BASE_NUM := by
    have hcs := card_suit_lt c
    unfold BASE_END BASE_START BASE_NUM at hcs
    unfold BASE_NUM
    omega
  have htklt : tk < g.desk.length := by
    rw [hlen]
    unfold DESK_SIZE PILE_NUM CELL_NUM
    unfold BASE_NUM at htk4 ⊢
    omega
  have hbag : cardBag (g.move_card gv tk) = cardBag g := cardBag_move_card gv htklt
  have hperm : (g.move_card gv tk).desk.flatten.Perm g.desk.flatten :=
    Multiset.coe_eq_coe.mp hbag
  have hgvplay : BASE_END ≤ gv := (mem_play_range.mp hgv).1
  have hgvtk : gv ≠ tk := by
    unfold BASE_END BASE_START BASE_NUM at hgvplay
    unfold BASE_NUM at htk4
    omega
  have hmove : (g.move_card gv tk).desk
      = (g.desk.set gv (deskGet g.desk gv).dropLast).set tk
        (deskGet (g.desk.set gv (deskGet g.desk gv).dropLast) tk ++ [c]) := by
    unfold Game.move_card
    rw [hc]
  have hinner : deskGet (g.desk.set gv (deskGet g.desk gv).dropLast) tk
      = deskGet g.desk tk := deskGet_set_ne hgvtk _
  refine ⟨by rw [length_move_card, hlen], ?_, ?_, ?_⟩
  · -- foundations stay canonical
    intro s hsmem
    have hs4 : s < BASE_NUM := mem_base_range.mp hsmem
    have hsgv : gv ≠ s := by
      unfold BASE_NUM at hs4
      unfold BASE_END BASE_START BASE_NUM at hgvplay
      omega
    rw [hmove]
    by_cases hstk : s = tk
    · subst hstk
      have hsget : deskGet ((g.desk.set gv (deskGet g.desk gv).dropLast).set s
          (deskGet (g.desk.set gv (deskGet g.desk gv).dropLast) s ++ [c])) s
          = deskGet g.desk s ++ [c] := by
        rw [deskGet_set_self (by rw [List.length_set]; exact htklt) _, hinner]
      rw [hsget]
      have hclt : c < CARD_NUM := hlt c (mem_flatten_of_deskGet (mem_getLast? hc))
      have hlen2 : (deskGet g.desk s ++ [c]).length = (deskGet g.desk s).length + 1 := by
        simp
      rw [hlen2, List.range_succ, List.map_append]
      congr 1
      · exact hbase s hsmem
      · simp only [List.map_cons, List.map_nil]
        congr 1
        rw [← to_card_decomp hclt]
        unfold to_card
        rw [hdepth, htkeq]
    · have hsget : deskGet ((g.desk.set gv (deskGet g.desk gv).dropLast).set tk
          (deskGet (g.desk.set gv (deskGet g.desk gv).dropLast) tk ++ [c])) s
          = deskGet g.desk s := by
        rw [deskGet_set_ne (fun he => hstk he.symm) _, deskGet_set_ne hsgv _]
      rw [hsget]
      exact hbase s hsmem
  · intro c' hc'
    exact hlt c' (hperm.subset hc')
  · exact hperm.nodup_iff.mpr hnd

/-! ### Lock analysis for auto promotions -/

theorem any_congr {l : List Nat} {p q : Nat → Bool} (h : ∀ a ∈ l, p a = q a) :
    l.any p = l.any q := by
  induction l with
  | nil => rfl
  | cons a t ih =>
    simp only [List.any_cons]
    rw [h a (List.mem_cons_self a t), ih fun b hb => h b (List.mem_cons_of_mem _ hb)]

theorem getD_dropLast {l : List Nat} {i : Nat} (h : i < l.length - 1) (d : Nat) :
    l.dropLast.getD i d = l.getD i d := by
  rw [List.getD_eq_getElem?_getD, List.getD_eq_getElem?_getD, List.getElem?_dropLast]
  simp [h]

theorem getD_of_getLast? {l : List Nat} {c : Nat} (h : l.getLast? = some c) :
    l.getD (l.length - 1) 0 = c := by
  rw [List.getLast?_eq_getElem?] at h
  rw [List.getD_eq_getElem?_getD, h]
  rfl

/-- The per-pile lock count of `Game::count_locks_at`, as a function of the
pile alone. -/
def locksOf (p : Pile) : Nat :=
  ((List.range' 1 (p.length - 1)).filter fun ci => is_lock p ci).length

theorem count_locks_at_eq (g : Game) (i : Nat) :
    g.count_locks_at i = locksOf (deskGet g.desk i) := rfl

/-- Dropping cards below the top does not change a lock test. -/
theorem is_lock_dropLast {p : Pile} {i : Nat} (h : i < p.length - 1) :
    is_lock p.dropLast i = is_lock p i := by
  unfold is_lock
  have hi : p.dropLast.getD i 0 = p.getD i 0 := getD_dropLast h 0
  apply any_congr
  intro j hj
  have hjlt : j < i := (List.mem_range).mp hj
  rw [hi, getD_dropLast (by omega) 0]

/-- Removing a top card that is not itself a lock keeps the pile's lock
count. -/
theorem locksOf_dropLast {p : Pile} (hne : p ≠ [])
    (htop : is_lock p (p.length - 1) = false) :
    locksOf p.dropLast = locksOf p := by
  have hlen : p.dropLast.length = p.length - 1 := List.length_dropLast p
  have hn1 : 1 ≤ p.length := by
    cases p with
    | nil => exact absurd rfl hne
    | cons a t => simp
  unfold locksOf
  rw [hlen]
  rcases hn : p.length - 1 with _ | m
  · simp [hn]
  · have hconcat : List.range' 1 (m + 1) = List.range' 1 m ++ [1 + m] := by
      rw [List.range'_concat]
      norm_num
    rw [hconcat]
    simp only [Nat.add_sub_cancel]
    rw [List.filter_append]
    have hlast : List.filter (fun ci => is_lock p ci) [1 + m] = [] := by
      have : 1 + m = p.length - 1 := by omega
      simp [List.filter, this, htop]
    rw [hlast, List.append_nil]
    have hcong : List.filter (fun ci => is_lock p.dropLast ci) (List.range' 1 m)
        = List.filter (fun ci => is_lock p ci) (List.range' 1 m) := by
      apply List.filter_congr
      intro a ha
      have := List.mem_range'_1.mp ha
      exact is_lock_dropLast (by omega)
    rw [hcong]

theorem flatten_two_piles {g : Game} (hnd : g.desk.flatten.Nodup) {i j b : Nat}
    (hij : i ≠ j) (hi : i < g.desk.length) (hj : j < g.desk.length)
    (hbi : b ∈ deskGet g.desk i) (hbj : b ∈ deskGet g.desk j) : False := by
  have hp := (List.nodup_flatten.mp hnd).2
  have hgi : deskGet g.desk i = g.desk[i] := List.getD_eq_getElem _ _ hi
  have hgj : deskGet g.desk j = g.desk[j] := List.getD_eq_getElem _ _ hj
  rcases Nat.lt_or_ge i j with hlt | hge
  · exact (List.pairwise_iff_getElem.mp hp i j hi hj hlt) (hgi ▸ hbi) (hgj ▸ hbj)
  · have hlt : j < i := by omega
    exact (List.pairwise_iff_getElem.mp hp j i hj hi hlt) (hgj ▸ hbj) (hgi ▸ hbi)

/-- A card whose rank equals its foundation depth cannot be a lock: all
lower same-suit cards already sit on the foundation. -/
theorem top_not_lock {g : Game} (hwf : WellFormed g) {gv c : Nat}
    (hgvpile : gv ∈ pile_range)
    (hc : (deskGet g.desk gv).getLast? = some c)
    (hdepth : (deskGet g.desk (card_suit c)).length = card_rank c) :
    is_lock (deskGet g.desk gv) ((deskGet g.desk gv).length - 1) = false := by
  obtain ⟨hlen, hbase, hlt, hnd⟩ := hwf
  by_contra htop
  rw [Bool.not_eq_false] at htop
  unfold is_lock at htop
  obtain ⟨j, hjmem, hcond⟩ := List.any_eq_true.mp htop
  rw [getD_of_getLast? hc] at hcond
  simp only [Bool.and_eq_true, decide_eq_true_eq, beq_iff_eq] at hcond
  obtain ⟨hrank, hsuit⟩ := hcond
  set p := deskGet g.desk gv with hp
  have hjlt : j < p.length := by
    have := List.mem_range.mp hjmem
    omega
  set b := p.getD j 0 with hb
  have hbmem : b ∈ p := by
    rw [hb, List.getD_eq_getElem _ _ hjlt]
    exact List.getElem_mem hjlt
  have hblt : b < CARD_NUM := hlt b (mem_flatten_of_deskGet hbmem)
  have hsb : card_suit b = card_suit c := hsuit.symm
  have hbbase : b ∈ deskGet g.desk (card_suit c) := by
    rw [hbase (card_suit c) (mem_base_range.mpr (by
      have := card_suit_lt c
      unfold BASE_END BASE_START BASE_NUM at this
      unfold BASE_NUM
      omega))]
    refine List.mem_map.mpr ⟨card_rank b, ?_, ?_⟩
    · rw [List.mem_range, hdepth]
      omega
    · rw [← hsb]
      exact to_card_decomp hblt
  have hgvlt : gv < g.desk.length := deskGet_lt_length (by
    intro he
    rw [← hp] at he
    rw [he] at hc
    cases hc)
  have hslt : card_suit c < g.desk.length := by
    have := card_suit_lt c
    rw [hlen]
    unfold BASE_END BASE_START BASE_NUM at this
    unfold DESK_SIZE PILE_NUM CELL_NUM BASE_NUM
    omega
  have hne : card_suit c ≠ gv := by
    have h1 := card_suit_lt c
    have h2 := (mem_pile_range.mp hgvpile).1
    unfold BASE_END BASE_START BASE_NUM at h1
    unfold PILE_START CELL_END CELL_START BASE_END BASE_START BASE_NUM CELL_NUM at h2
    omega
  exact flatten_two_piles hnd hne hslt hgvlt hbbase hbmem

/-- An auto promotion leaves every cascade's lock count unchanged. -/
theorem count_locks_auto_step {g : Game} (hwf : WellFormed g) {gv tk : Nat}
    (h : g.find_auto = some (gv, tk)) :
    (g.move_card gv tk).count_locks = g.count_locks := by
  obtain ⟨hgv, c, hc, _, hdepth, htkeq⟩ := find_auto_some_spec hwf h
  rw [Game.card_at] at hc
  rw [← htkeq] at hdepth
  have htk4 : tk < BASE_NUM := by
    have hcs := card_suit_lt c
    unfold BASE_END BASE_START BASE_NUM at hcs
    unfold BASE_NUM
    omega
  have hmove : (g.move_card gv tk).desk
      = (g.desk.set gv (deskGet g.desk gv).dropLast).set tk
        (deskGet (g.desk.set gv (deskGet g.desk gv).dropLast) tk ++ [c]) := by
    unfold Game.move_card
    rw [hc]
  have hne : deskGet g.desk gv ≠ [] := by
    intro he; rw [he] at hc; cases hc
  unfold Game.count_locks
  apply congrArg List.sum
  apply List.map_congr_left
  intro i hi
  have hipile := mem_pile_range.mp hi
  have hitk : tk ≠ i := by
    unfold PILE_START CELL_END CELL_START BASE_END BASE_START BASE_NUM CELL_NUM at hipile
    unfold BASE_NUM at htk4
    omega
  rw [count_locks_at_eq, count_locks_at_eq, hmove, deskGet_set_ne hitk _]
  by_cases higv : gv = i
  · subst higv
    rw [deskGet_set_self (deskGet_lt_length hne) _]
    have htop : is_lock (deskGet g.desk gv) ((deskGet g.desk gv).length - 1) = false := by
      rw [htkeq] at hdepth
      exact top_not_lock ⟨hwf.1, hwf.2.1, hwf.2.2.1, hwf.2.2.2⟩ hi hc hdepth
    exact locksOf_dropLast hne htop
  · rw [deskGet_set_ne higv _]

/-- One auto promotion leaves `estimate_path_len` unchanged: the path grows by
one, the unsolved count drops by one, and no lock is affected. -/
theorem estimate_auto_step {g : Game} (hwf : WellFormed g) {gv tk : Nat}
    (h : g.find_auto = some (gv, tk)) :
    (g.move_card gv tk).estimate_path_len = g.estimate_path_len := by
  obtain ⟨hgv, c, hc, _, _, htkeq⟩ := find_auto_some_spec hwf h
  rw [Game.card_at] at hc
  have hne : deskGet g.desk gv ≠ [] := by
    intro he; rw [he] at hc; cases hc
  have htk4 : tk < BASE_END := htkeq ▸ card_suit_lt c
  have hpath : (g.move_card gv tk).path.length = g.path.length + 1 := by
    rw [path_move_card hne]
    simp
  have huns := count_unsolved_move_card hgv htk4 hne
  have hlocks := count_locks_auto_step hwf h
  unfold Game.estimate_path_len
  omega

theorem estimate_autoFuel : ∀ (n : Nat) (g : Game), WellFormed g →
    (autoFuel n g).1.estimate_path_len = g.estimate_path_len := by
  intro n
  induction n with
  | zero => intro g _; rfl
  | succ n ih =>
    intro g hwf
    unfold autoFuel
    rcases hf : g.find_auto with _ | ⟨gv, tk⟩
    · rfl
    · show (autoFuel n (g.move_card gv tk)).1.estimate_path_len = g.estimate_path_len
      rw [ih _ (wellFormed_auto_step hwf hf)]
      exact estimate_auto_step hwf hf

/-- C9: on a well-formed board, `estimate_path_len` after `move_cards_auto`
is greater than or equal to its value before (auto-play in fact preserves the
lower bound exactly, because every promoted card adds one move, removes one
unsolved card, and can never be a lock). -/
theorem estimate_path_len_monotone_auto (g : Game) (hwf : WellFormed g) :
    g.estimate_path_len ≤ g.move_cards_auto.1.estimate_path_len := by
  unfold Game.move_cards_auto
  rw [estimate_autoFuel _ g hwf]

/-- A small well-formed board with one ace on a cascade, which auto-play
promotes. -/
def autoWitnessGame : Game :=
  { desk := [[], [], [], [], [], [], [], [], [0], [], [], [], [], [], [], []], path := [] }

/-- Witness for `estimate_path_len_monotone_auto`. -/
theorem estimate_path_len_monotone_auto_witness :
    WellFormed autoWitnessGame ∧
      autoWitnessGame.estimate_path_len
        ≤ autoWitnessGame.move_cards_auto.1.estimate_path_len :=
  ⟨by decide, estimate_path_len_monotone_auto _ (by decide)⟩

/-! ### The auto-promotion specification (C6) -/

/-- The claim's description of auto-play, written from its words: a chain of
single-card promotions, each moving the top card of a play spot to its own
suit's foundation exactly when the card's rank equals that foundation's
current depth and does not exceed 1 + the minimum foundation depth among the
opposite-color suits, repeated until no such move exists; the index counts
the promotions. -/
inductive AutoChain : Game → Game → Nat → Prop where
  | done (g : Game)
      (h : ∀ gv ∈ play_range, ∀ c, g.card_at gv = some c →
        ¬(card_rank c ≤ 1 + oppMinDepth g c ∧
          (deskGet g.desk (card_suit c)).length = card_rank c)) :
      AutoChain g g 0
  | step (g g' : Game) (n gv c : Nat) (hgv : gv ∈ play_range)
      (hc : g.card_at gv = some c)
      (hsafe : card_rank c ≤ 1 + oppMinDepth g c)
      (hdepth : (deskGet g.desk (card_suit c)).length = card_rank c)
      (hrest : AutoChain (g.move_card gv (card_suit c)) g' n) :
      AutoChain g g' (n + 1)

theorem autoFuel_chain : ∀ (n : Nat) (g : Game), WellFormed g → g.count_unsolved < n →
    AutoChain g (autoFuel n g).1 (autoFuel n g).2 ∧
      (autoFuel n g).1.path.length = g.path.length + (autoFuel n g).2 := by
  intro n
  induction n with
  | zero => intro g _ h; omega
  | succ n ih =>
    intro g hwf hcu
    rcases hf : g.find_auto with _ | ⟨gv, tk⟩
    · have hfuel : autoFuel (n + 1) g = (g, 0) := by
        unfold autoFuel
        rw [hf]
      rw [hfuel]
      exact ⟨AutoChain.done g (find_auto_none_spec hwf hf), rfl⟩
    · obtain ⟨hgv, c, hc, hsafe, hdepth, htkeq⟩ := find_auto_some_spec hwf hf
      have hfuel : autoFuel (n + 1) g
          = ((autoFuel n (g.move_card gv tk)).1, (autoFuel n (g.move_card gv tk)).2 + 1) := by
        conv_lhs => rw [autoFuel]
        rw [hf]
      have hdec := count_unsolved_find_auto hf
      have hwf' := wellFormed_auto_step hwf hf
      obtain ⟨hchain, hpath⟩ := ih (g.move_card gv tk) hwf' (by omega)
      have hne : deskGet g.desk gv ≠ [] := by
        rw [Game.card_at] at hc
        intro he; rw [he] at hc; cases hc
      have hplen : (g.move_card gv tk).path.length = g.path.length + 1 := by
        rw [path_move_card hne]; simp
      rw [hfuel]
      constructor
      · refine AutoChain.step g _ _ gv c hgv hc hsafe hdepth ?_
        rw [← htkeq]
        exact hchain
      · simp only
        omega

/-- C6: `move_cards_auto` performs exactly a maximal chain of safe
auto-promotions — each move sends a top card whose rank equals its suit's
foundation depth and does not exceed 1 + the minimum opposite-color
foundation depth to that foundation, it repeats until no such move exists —
and returns exactly the number of cards it promoted. -/
theorem move_cards_auto_spec (g : Game) (hwf : WellFormed g) :
    AutoChain g g.move_cards_auto.1 g.move_cards_auto.2 ∧
      g.move_cards_auto.1.path.length = g.path.length + g.move_cards_auto.2 := by
  unfold Game.move_cards_auto
  exact autoFuel_chain (g.count_unsolved + 1) g hwf (by omega)

/-- Witness for `move_cards_auto_spec`. -/
theorem move_cards_auto_spec_witness :
    WellFormed autoWitnessGame ∧
      AutoChain autoWitnessGame autoWitnessGame.move_cards_auto.1
        autoWitnessGame.move_cards_auto.2 ∧
      autoWitnessGame.move_cards_auto.1.path.length
        = autoWitnessGame.path.length + autoWitnessGame.move_cards_auto.2 :=
  ⟨by decide, move_cards_auto_spec autoWitnessGame (by decide)⟩

/-! ## invariant.rs and the fingerprint (game.rs) -/

def KEY_SIZE : Nat := BASE_NUM + PILE_NUM + CARD_NUM

/-- `Key64`: 64 bytes.  Modeled as a length-64 list; equality of `Key64`
values is elementwise equality, as for the Rust array. -/
abbrev Key := List Nat

/-- `Key64::new()`. -/
def Key64.new : Key := List.replicate KEY_SIZE 0

/-- `Key64::put` (Rust panics out of range; real writes stay in range). -/
def keyPut (k : Key) (index value : Nat) : Key := k.set index value

/-- Sequential `Key64::put` of a byte list starting at `pos` (the inner card
loop of `fill_pile_invariant`). -/
def putCards : List Nat → Nat → Key → Key
  | [], _, k => k
  | c :: cs, pos, k => putCards cs (pos + 1) (keyPut k pos c)

/-- The `Ord` of `Vec<u8>`: lexicographic comparison, shorter prefix first. -/
def lexLe : Pile → Pile → Bool
  | [], _ => true
  | _ :: _, [] => false
  | a :: as_, b :: bs => if a < b then true else if a = b then lexLe as_ bs else false

def pileLe (a b : Pile) : Prop := lexLe a b = true

instance : DecidableRel pileLe := fun a b => by
  unfold pileLe
  infer_instance

theorem lexLe_total : ∀ (a b : Pile), lexLe a b = true ∨ lexLe b a = true := by
  intro a
  induction a with
  | nil => intro b; left; rfl
  | cons x xs ih =>
    intro b
    cases b with
    | nil => right; rfl
    | cons y ys =>
      unfold lexLe
      rcases Nat.lt_trichotomy x y with h | h | h
      · left; rw [if_pos h]
      · subst h
        rcases ih ys with h2 | h2
        · left; rw [if_neg (Nat.lt_irrefl x), if_pos rfl]; exact h2
        · right; rw [if_neg (Nat.lt_irrefl x), if_pos rfl]; exact h2
      · right; rw [if_pos h]

theorem lexLe_antisymm : ∀ (a b : Pile), lexLe a b = true → lexLe b a = true → a = b := by
  intro a
  induction a with
  | nil =>
    intro b _ hb
    cases b with
    | nil => rfl
    | cons y ys => cases hb
  | cons x xs ih =>
    intro b hab hba
    cases b with
    | nil => cases hab
    | cons y ys =>
      unfold lexLe at hab hba
      rcases Nat.lt_trichotomy x y with h | h | h
      · rw [if_neg (by omega), if_neg (by omega)] at hba
        cases hba
      · subst h
        rw [if_neg (Nat.lt_irrefl x), if_pos rfl] at hab hba
        rw [ih ys hab hba]
      · rw [if_neg (by omega), if_neg (by omega)] at hab
        cases hab

theorem lexLe_trans : ∀ (a b c : Pile), lexLe a b = true → lexLe b c = true →
    lexLe a c = true := by
  intro a
  induction a with
  | nil => intro b c _ _; rfl
  | cons x xs ih =>
    intro b c hab hbc
    cases b with
    | nil => cases hab
    | cons y ys =>
      cases c with
      | nil => cases hbc
      | cons z zs =>
        unfold lexLe at hab hbc ⊢
        rcases Nat.lt_trichotomy x y with h1 | h1 | h1
        · rcases Nat.lt_trichotomy y z with h2 | h2 | h2
          · rw [if_pos (by omega)]
          · subst h2; rw [if_pos h1]
          · rw [if_neg (by omega), if_neg (by omega)] at hbc; cases hbc
        · subst h1
          rcases Nat.lt_trichotomy x z with h2 | h2 | h2
          · rw [if_pos h2]
          · subst h2
            rw [if_neg (Nat.lt_irrefl x), if_pos rfl] at hab hbc ⊢
            exact ih ys zs hab hbc
          · rw [if_neg (by omega), if_neg (by omega)] at hbc; cases hbc
        · rw [if_neg (by omega), if_neg (by omega)] at hab; cases hab

instance : IsTotal Pile pileLe := ⟨lexLe_total⟩

instance : IsTrans Pile pileLe := ⟨lexLe_trans⟩

instance : IsAntisymm Pile pileLe := ⟨lexLe_antisymm⟩

/-- The write loop over the sorted buffer in `fill_pile_invariant`: for each
pile, its length byte then its cards, at consecutive positions. -/
def pileBlocks : List Pile → Nat → Key → Key
  | [], _, k => k
  | p :: ps, pos, k =>
    pileBlocks ps (pos + 1 + p.length) (putCards p (pos + 1) (keyPut k pos (p.length % 256)))

/-- `Game::fill_base_invariant`: the four foundation depths (cast to `u8`)
into the four fixed slots. -/
def Game.fill_base_invariant (g : Game) (key : Key) : Key :=
  base_range.foldl (fun k i => keyPut k i ((deskGet g.desk i).length % 256)) key

/-- The `buffer` of `Game::fill_pile_invariant`: the non-empty cascades in
slot order. -/
def Game.pileBuffer (g : Game) : List Pile :=
  pile_range.filterMap fun i =>
    if (deskGet g.desk i).isEmpty then none else some (deskGet g.desk i)

/-- `Game::fill_pile_invariant`: sort the non-empty cascades (the unstable
Rust sort agrees with any sort under a total antisymmetric order) and write
each as its length byte followed by its cards. -/
def Game.fill_pile_invariant (g : Game) (key : Key) : Key :=
  if g.pileBuffer.isEmpty then key
  else pileBlocks (List.insertionSort pileLe g.pileBuffer) BASE_NUM key

/-- `Game::get_invariant`. -/
def Game.get_invariant (g : Game) : Key :=
  g.fill_pile_invariant (g.fill_base_invariant Key64.new)

/-! ### Fingerprint normal form -/

/-- Spec-side serialization of a cascade list: for each pile its length byte
followed by its cards, concatenated. -/
def blockBytes : List Pile → List Nat
  | [] => []
  | p :: ps => (p.length % 256) :: p ++ blockBytes ps

def blocksSize (L : List Pile) : Nat := (L.map fun p => 1 + p.length).sum

/-- The four foundation depth bytes. -/
def baseBytes (g : Game) : List Nat :=
  base_range.map fun s => (deskGet g.desk s).length % 256

/-- Modelled from the spec (§4.2): the reference fingerprint — the four
foundation depths in the four fixed slots, then the non-empty cascades only
(free cells excluded), sorted canonically by their content bytes, each
serialized as a length byte followed by its cards, with all remaining bytes
zero. -/
def specInvariant (g : Game) : Key :=
  baseBytes g ++ blockBytes (List.insertionSort pileLe g.pileBuffer)
    ++ List.replicate
      (KEY_SIZE - (BASE_NUM + (blockBytes (List.insertionSort pileLe g.pileBuffer)).length)) 0

/-- Boundedness needed for fingerprinting: pile lengths fit a byte and the
serialized cascades fit the 64-byte key; true of every real 52-card desk. -/
def DeskBounded (g : Game) : Prop :=
  (∀ i, i < DESK_SIZE → (deskGet g.desk i).length < 256) ∧
  BASE_NUM + blocksSize (pile_range.map fun i => deskGet g.desk i) ≤ KEY_SIZE

instance (g : Game) : Decidable (DeskBounded g) := by
  unfold DeskBounded
  exact inferInstance

theorem putCards_append (a b : List Nat) : ∀ (pos : Nat) (k : Key),
    putCards (a ++ b) pos k = putCards b (pos + a.length) (putCards a pos k) := by
  induction a with
  | nil => intro pos k; simp [putCards]
  | cons x xs ih =>
    intro pos k
    show putCards (xs ++ b) (pos + 1) (keyPut k pos x)
      = putCards b (pos + (xs.length + 1)) (putCards xs (pos + 1) (keyPut k pos x))
    rw [ih]
    congr 1
    omega

theorem pileBlocks_eq_putCards : ∀ (L : List Pile) (pos : Nat) (k : Key),
    pileBlocks L pos k = putCards (blockBytes L) pos k := by
  intro L
  induction L with
  | nil => intro pos k; rfl
  | cons p ps ih =>
    intro pos k
    show pileBlocks ps (pos + 1 + p.length) (putCards p (pos + 1) (keyPut k pos (p.length % 256)))
      = putCards ((p.length % 256) :: (p ++ blockBytes ps)) pos k
    rw [ih]
    show putCards (blockBytes ps) (pos + 1 + p.length) _
      = putCards (p ++ blockBytes ps) (pos + 1) (keyPut k pos (p.length % 256))
    rw [putCards_append]

theorem blockBytes_length : ∀ (L : List Pile), (blockBytes L).length = blocksSize L := by
  intro L
  induction L with
  | nil => rfl
  | cons p ps ih =>
    show ((p.length % 256) :: (p ++ blockBytes ps)).length = 1 + p.length + blocksSize ps
    simp [ih, blocksSize]
    omega


/-- Writing a byte list over the zero tail of a key lays the bytes down
verbatim. -/
theorem putCards_zero_pad : ∀ (bs : List Nat) (A : Key) (m : Nat), bs.length ≤ m →
    putCards bs A.length (A ++ List.replicate m 0)
      = A ++ bs ++ List.replicate (m - bs.length) 0 := by
  intro bs
  induction bs with
  | nil => intro A m _; simp [putCards]
  | cons b bs ih =>
    intro A m hm
    have hm1 : 1 ≤ m := by
      simp only [List.length_cons] at hm
      omega
    show putCards bs (A.length + 1) (keyPut (A ++ List.replicate m 0) A.length b)
      = A ++ (b :: bs) ++ List.replicate (m - (b :: bs).length) 0
    have hset : keyPut (A ++ List.replicate m 0) A.length b
        = (A ++ [b]) ++ List.replicate (m - 1) 0 := by
      unfold keyPut
      rcases m with _ | m'
      · omega
      · rw [List.replicate_succ, List.set_append_right _ _ (Nat.le_refl _)]
        simp
    rw [hset]
    have hlen : A.length + 1 = (A ++ [b]).length := by simp
    rw [hlen, ih (A ++ [b]) (m - 1) (by simp only [List.length_cons] at hm; omega)]
    simp only [List.length_cons]
    have he : m - 1 - bs.length = m - (bs.length + 1) := by omega
    rw [he]
    simp

theorem baseBytes_length (g : Game) : (baseBytes g).length = BASE_NUM := rfl

theorem fill_base_eq_putCards (g : Game) (k : Key) :
    g.fill_base_invariant k = putCards (baseBytes g) 0 k := rfl

theorem fill_pile_eq_pileBlocks (g : Game) (k : Key) :
    g.fill_pile_invariant k
      = pileBlocks (List.insertionSort pileLe g.pileBuffer) BASE_NUM k := by
  unfold Game.fill_pile_invariant
  by_cases h : g.pileBuffer.isEmpty
  · rw [if_pos h]
    rw [List.isEmpty_iff] at h
    rw [h]
    rfl
  · rw [if_neg h]

theorem filterMap_eq_filter_map (f : Nat → Pile) : ∀ (l : List Nat),
    (l.filterMap fun i => if (f i).isEmpty then none else some (f i))
      = (l.map f).filter fun p => !p.isEmpty := by
  intro l
  induction l with
  | nil => rfl
  | cons a t ih =>
    rw [List.filterMap_cons, List.map_cons, List.filter_cons, ← ih]
    cases h : (f a).isEmpty <;> simp [h]

/-- The buffer is the filtered cascade list. -/
theorem pileBuffer_eq_filter (g : Game) :
    g.pileBuffer = (pile_range.map fun i => deskGet g.desk i).filter fun p => !p.isEmpty :=
  filterMap_eq_filter_map (fun i => deskGet g.desk i) pile_range

/-- Size of the serialized sorted buffer, bounded by the un-filtered size. -/
theorem blocksSize_sorted_le (g : Game) :
    blocksSize (List.insertionSort pileLe g.pileBuffer)
      ≤ blocksSize (pile_range.map fun i => deskGet g.desk i) := by
  have h1 : blocksSize (List.insertionSort pileLe g.pileBuffer) = blocksSize g.pileBuffer := by
    unfold blocksSize
    exact ((List.perm_insertionSort pileLe g.pileBuffer).map _).sum_eq
  rw [h1, pileBuffer_eq_filter]
  unfold blocksSize
  exact List.Sublist.sum_le_sum
    ((List.filter_sublist _).map _) (fun a _ => Nat.zero_le a)

/-- `get_invariant` in closed form: the four foundation depth bytes, the
serialized sorted non-empty cascades, and a zero pad. -/
theorem putCards_zero_pad0 (bs : List Nat) (m : Nat) (h : bs.length ≤ m) :
    putCards bs 0 (List.replicate m 0) = bs ++ List.replicate (m - bs.length) 0 := by
  have := putCards_zero_pad bs [] m h
  simpa using this

/-- `get_invariant` in closed form: the four foundation depth bytes, the
serialized sorted non-empty cascades, and a zero pad. -/
theorem invariant_normal_form (g : Game) (hb : DeskBounded g) :
    g.get_invariant
      = baseBytes g ++ blockBytes (List.insertionSort pileLe g.pileBuffer)
        ++ List.replicate
          (KEY_SIZE - (BASE_NUM
            + (blockBytes (List.insertionSort pileLe g.pileBuffer)).length)) 0 := by
  obtain ⟨hlens, hsize⟩ := hb
  have hKB : BASE_NUM ≤ KEY_SIZE := by
    unfold KEY_SIZE CARD_NUM RANK_NUM SUIT_NUM PILE_NUM BASE_NUM
    omega
  have hblen : (blockBytes (List.insertionSort pileLe g.pileBuffer)).length
      ≤ KEY_SIZE - BASE_NUM := by
    rw [blockBytes_length]
    have := blocksSize_sorted_le g
    omega
  unfold Game.get_invariant
  rw [fill_pile_eq_pileBlocks, fill_base_eq_putCards, pileBlocks_eq_putCards]
  unfold Key64.new
  rw [putCards_zero_pad0 _ _ (by rw [baseBytes_length]; exact hKB)]
  rw [baseBytes_length]
  have hBN : BASE_NUM = (baseBytes g).length := (baseBytes_length g).symm
  conv_lhs => rw [hBN]
  rw [putCards_zero_pad _ (baseBytes g) _ (by rw [baseBytes_length]; exact hblen)]
  congr 1
  congr 1
  rw [baseBytes_length]
  omega

/-! ### Fingerprint injectivity (C4) -/

/-- Zero-padded block serializations of distinct (nonempty, byte-length)
cascade lists are distinct: the length byte prefixing each block makes the
code uniquely decodable. -/
theorem blockBytes_pad_inj : ∀ (L1 L2 : List Pile) (z1 z2 : Nat),
    (∀ p ∈ L1, p ≠ [] ∧ p.length < 256) → (∀ p ∈ L2, p ≠ [] ∧ p.length < 256) →
    blockBytes L1 ++ List.replicate z1 0 = blockBytes L2 ++ List.replicate z2 0 →
    L1 = L2 := by
  intro L1
  induction L1 with
  | nil =>
    intro L2 z1 z2 _ hok2 heq
    cases L2 with
    | nil => rfl
    | cons q Q2 =>
      exfalso
      obtain ⟨hqne, hqlt⟩ := hok2 q (List.mem_cons_self _ _)
      have hq1 : 1 ≤ q.length := List.length_pos.mpr hqne
      have hmod : q.length % 256 = q.length := Nat.mod_eq_of_lt hqlt
      rw [show blockBytes ([] : List Pile) = [] from rfl, List.nil_append] at heq
      rw [show blockBytes (q :: Q2) = (q.length % 256) :: (q ++ blockBytes Q2) from rfl] at heq
      cases z1 with
      | zero => simp at heq
      | succ n =>
        rw [List.replicate_succ] at heq
        have h0 := List.head_eq_of_cons_eq heq
        omega
  | cons p Q1 ih =>
    intro L2 z1 z2 hok1 hok2 heq
    obtain ⟨hpne, hplt⟩ := hok1 p (List.mem_cons_self _ _)
    have hp1 : 1 ≤ p.length := List.length_pos.mpr hpne
    have hpmod : p.length % 256 = p.length := Nat.mod_eq_of_lt hplt
    cases L2 with
    | nil =>
      exfalso
      rw [show blockBytes ([] : List Pile) = [] from rfl, List.nil_append] at heq
      rw [show blockBytes (p :: Q1) = (p.length % 256) :: (p ++ blockBytes Q1) from rfl] at heq
      cases z2 with
      | zero => simp at heq
      | succ n =>
        rw [List.replicate_succ] at heq
        have h0 := List.head_eq_of_cons_eq heq
        omega
    | cons q Q2 =>
      obtain ⟨hqne, hqlt⟩ := hok2 q (List.mem_cons_self _ _)
      have hqmod : q.length % 256 = q.length := Nat.mod_eq_of_lt hqlt
      rw [show blockBytes (p :: Q1) = (p.length % 256) :: (p ++ blockBytes Q1) from rfl] at heq
      rw [show blockBytes (q :: Q2) = (q.length % 256) :: (q ++ blockBytes Q2) from rfl] at heq
      rw [List.cons_append, List.cons_append] at heq
      have hhead := List.head_eq_of_cons_eq heq
      have htail := List.tail_eq_of_cons_eq heq
      have hlen : p.length = q.length := by omega
      rw [List.append_assoc, List.append_assoc] at htail
      obtain ⟨hpq, hrest⟩ := List.append_inj htail hlen
      have hQ : Q1 = Q2 :=
        ih Q2 z1 z2 (fun r hr => hok1 r (List.mem_cons_of_mem _ hr))
          (fun r hr => hok2 r (List.mem_cons_of_mem _ hr)) hrest
      rw [hpq, hQ]

/-- The cascade slots of a desk, in order. -/
def pilesOf (g : Game) : List Pile := pile_range.map fun i => deskGet g.desk i

theorem length_pilesOf (g : Game) : (pilesOf g).length = PILE_NUM := by
  unfold pilesOf pile_range
  rw [List.length_map, List.length_range']

/-- C4: the fingerprint ignores free-cell contents entirely, is invariant
under permuting which cascade slot holds which card sequence, and — on
bounded desks — distinguishes any two desks that differ in some foundation
depth or in the multiset of their cascade card sequences. -/
theorem get_invariant_permutation_spec (g1 g2 : Game) :
    ((∀ i ∈ base_range, deskGet g1.desk i = deskGet g2.desk i) →
      (∀ i ∈ pile_range, deskGet g1.desk i = deskGet g2.desk i) →
      g1.get_invariant = g2.get_invariant) ∧
    ((∀ i ∈ base_range, deskGet g1.desk i = deskGet g2.desk i) →
      (pilesOf g1).Perm (pilesOf g2) →
      g1.get_invariant = g2.get_invariant) ∧
    (DeskBounded g1 → DeskBounded g2 →
      (∃ s ∈ base_range, (deskGet g1.desk s).length ≠ (deskGet g2.desk s).length) →
      g1.get_invariant ≠ g2.get_invariant) ∧
    (DeskBounded g1 → DeskBounded g2 →
      ¬(pilesOf g1).Perm (pilesOf g2) →
      g1.get_invariant ≠ g2.get_invariant) := by
  have hbB : ∀ (h : ∀ i ∈ base_range, deskGet g1.desk i = deskGet g2.desk i),
      baseBytes g1 = baseBytes g2 := by
    intro h
    exact List.map_congr_left fun s hs => by rw [h s hs]
  have hsorted : ∀ (h : (pilesOf g1).Perm (pilesOf g2)),
      List.insertionSort pileLe g1.pileBuffer = List.insertionSort pileLe g2.pileBuffer := by
    intro h
    have hbuf : g1.pileBuffer.Perm g2.pileBuffer := by
      rw [pileBuffer_eq_filter, pileBuffer_eq_filter]
      exact h.filter _
    exact List.eq_of_perm_of_sorted
      ((List.perm_insertionSort _ _).trans (hbuf.trans (List.perm_insertionSort _ _).symm))
      (List.sorted_insertionSort _ _) (List.sorted_insertionSort _ _)
  have hok : ∀ (g : Game), DeskBounded g →
      ∀ p ∈ List.insertionSort pileLe g.pileBuffer, p ≠ [] ∧ p.length < 256 := by
    intro g hb p hp
    rw [List.mem_insertionSort, pileBuffer_eq_filter] at hp
    have hmem := List.mem_of_mem_filter hp
    have hfilt := List.of_mem_filter hp
    obtain ⟨i, hi, rfl⟩ := List.mem_map.mp hmem
    constructor
    · intro he
      rw [he] at hfilt
      simp at hfilt
    · exact hb.1 i (mem_pile_range.mp hi).2
  have hnf_inj : ∀ (hb1 : DeskBounded g1) (hb2 : DeskBounded g2),
      g1.get_invariant = g2.get_invariant →
      baseBytes g1 = baseBytes g2 ∧
        List.insertionSort pileLe g1.pileBuffer = List.insertionSort pileLe g2.pileBuffer := by
    intro hb1 hb2 heq
    rw [invariant_normal_form g1 hb1, invariant_normal_form g2 hb2] at heq
    rw [List.append_assoc, List.append_assoc] at heq
    obtain ⟨hbase, htail⟩ := List.append_inj heq (by rw [baseBytes_length, baseBytes_length])
    refine ⟨hbase, ?_⟩
    exact blockBytes_pad_inj _ _ _ _ (hok g1 hb1) (hok g2 hb2) htail
  refine ⟨?_, ?_, ?_, ?_⟩
  · intro hbase hpile
    have h1 := hbB hbase
    have hbuf : g1.pileBuffer = g2.pileBuffer := by
      rw [pileBuffer_eq_filter, pileBuffer_eq_filter]
      congr 1
      exact List.map_congr_left hpile
    unfold Game.get_invariant
    rw [fill_pile_eq_pileBlocks, fill_pile_eq_pileBlocks, fill_base_eq_putCards,
      fill_base_eq_putCards, h1, hbuf]
  · intro hbase hperm
    unfold Game.get_invariant
    rw [fill_pile_eq_pileBlocks, fill_pile_eq_pileBlocks, fill_base_eq_putCards,
      fill_base_eq_putCards, hbB hbase, hsorted hperm]
  · rintro hb1 hb2 ⟨s, hsmem, hsne⟩ heq
    obtain ⟨hbase, _⟩ := hnf_inj hb1 hb2 heq
    have hs4 : s < BASE_NUM := mem_base_range.mp hsmem
    have hb1s : (deskGet g1.desk s).length < 256 := by
      apply hb1.1
      unfold DESK_SIZE PILE_NUM CELL_NUM BASE_NUM
      unfold BASE_NUM at hs4
      omega
    have hb2s : (deskGet g2.desk s).length < 256 := by
      apply hb2.1
      unfold DESK_SIZE PILE_NUM CELL_NUM BASE_NUM
      unfold BASE_NUM at hs4
      omega
    have hexp : baseBytes g1 = [(deskGet g1.desk 0).length % 256,
        (deskGet g1.desk 1).length % 256, (deskGet g1.desk 2).length % 256,
        (deskGet g1.desk 3).length % 256] := rfl
    have hexp2 : baseBytes g2 = [(deskGet g2.desk 0).length % 256,
        (deskGet g2.desk 1).length % 256, (deskGet g2.desk 2).length % 256,
        (deskGet g2.desk 3).length % 256] := rfl
    rw [hexp, hexp2] at hbase
    simp only [List.cons.injEq, and_true] at hbase
    unfold BASE_NUM at hs4
    interval_cases s <;>
      [exact hsne (by omega); exact hsne (by omega); exact hsne (by omega);
        exact hsne (by omega)]
  · intro hb1 hb2 hnp heq
    obtain ⟨_, hsorteq⟩ := hnf_inj hb1 hb2 heq
    apply hnp
    have hbufperm : g1.pileBuffer.Perm g2.pileBuffer :=
      (List.perm_insertionSort pileLe g1.pileBuffer).symm.trans
        (hsorteq ▸ List.perm_insertionSort pileLe g2.pileBuffer)
    have hsplit : ∀ (g : Game), (pilesOf g).Perm
        (g.pileBuffer ++ List.replicate (PILE_NUM - g.pileBuffer.length) []) := by
      intro g
      have hfp := List.filter_append_perm (fun p : Pile => !p.isEmpty) (pilesOf g)
      have hbufeq : g.pileBuffer = (pilesOf g).filter fun p => !p.isEmpty :=
        pileBuffer_eq_filter g
      have hemp : (pilesOf g).filter (fun p => !(!p.isEmpty))
          = List.replicate ((pilesOf g).filter fun p => !(!p.isEmpty)).length [] := by
        apply List.eq_replicate_of_mem
        intro b hb
        have := List.of_mem_filter hb
        simp only [Bool.not_not] at this
        exact List.isEmpty_iff.mp this
      have hcount : ((pilesOf g).filter fun p => !(!p.isEmpty)).length
          = PILE_NUM - g.pileBuffer.length := by
        have hlenfp := hfp.length_eq
        rw [List.length_append] at hlenfp
        rw [length_pilesOf] at hlenfp
        rw [hbufeq]
        omega
      have h2 : (((pilesOf g).filter fun p => !p.isEmpty)
          ++ (pilesOf g).filter fun p => !(!p.isEmpty))
          = g.pileBuffer ++ List.replicate (PILE_NUM - g.pileBuffer.length) [] := by
        rw [hemp, hcount, ← hbufeq]
      rw [← h2]
      exact hfp.symm
    have hlen12 : g1.pileBuffer.length = g2.pileBuffer.length := hbufperm.length_eq
    have hmid : (g1.pileBuffer ++ List.replicate (PILE_NUM - g1.pileBuffer.length) []).Perm
        (g2.pileBuffer ++ List.replicate (PILE_NUM - g2.pileBuffer.length) []) := by
      rw [hlen12]
      exact hbufperm.append (List.Perm.refl _)
    exact (hsplit g1).trans (hmid.trans (hsplit g2).symm)

/-- C5: on any bounded desk, `get_invariant` equals the spec's reference
construction: the four foundation depths in the first four fixed byte slots,
then the non-empty cascades only (free cells excluded) sorted canonically by
content bytes, each serialized as its length byte followed by its cards in
order, with all remaining bytes zero. -/
theorem get_invariant_eq_spec (g : Game) (hb : DeskBounded g) :
    g.get_invariant = specInvariant g := by
  rw [invariant_normal_form g hb]
  rfl

/-- Witness for `get_invariant_eq_spec` on a dealt board. -/
theorem get_invariant_eq_spec_witness :
    DeskBounded (Game.new.deal (List.range 12)) ∧
      (Game.new.deal (List.range 12)).get_invariant
        = specInvariant (Game.new.deal (List.range 12)) :=
  ⟨by decide, get_invariant_eq_spec _ (by decide)⟩

/-- Boards for the fingerprint-permutation witness: `c4gA` is the reference;
`c4gC` moves the free-cell card; `c4gB` also swaps two cascades; `c4gD`
raises a foundation depth; `c4gE` changes a cascade's cards. -/
def c4gA : Game :=
  { desk := [[], [], [], [], [5], [], [], [], [0], [1], [], [], [], [], [], []], path := [] }

def c4gC : Game :=
  { desk := [[], [], [], [], [], [], [5], [], [0], [1], [], [], [], [], [], []], path := [] }

def c4gB : Game :=
  { desk := [[], [], [], [], [5], [], [], [], [1], [0], [], [], [], [], [], []], path := [] }

def c4gD : Game :=
  { desk := [[0], [], [], [], [5], [], [], [], [0], [1], [], [], [], [], [], []], path := [] }

def c4gE : Game :=
  { desk := [[], [], [], [], [5], [], [], [], [2], [1], [], [], [], [], [], []], path := [] }

/-- Witness for `get_invariant_permutation_spec`. -/
theorem get_invariant_permutation_spec_witness :
    c4gA.get_invariant = c4gC.get_invariant ∧
      c4gA.get_invariant = c4gB.get_invariant ∧
      c4gA.get_invariant ≠ c4gD.get_invariant ∧
      c4gA.get_invariant ≠ c4gE.get_invariant :=
  ⟨(get_invariant_permutation_spec c4gA c4gC).1 (by decide) (by decide),
    (get_invariant_permutation_spec c4gA c4gB).2.1 (by decide) (by decide),
    (get_invariant_permutation_spec c4gA c4gD).2.2.1 (by decide) (by decide) (by decide),
    (get_invariant_permutation_spec c4gA c4gE).2.2.2 (by decide) (by decide) (by decide)⟩

/-! ## Move generation (game.rs) -/

/-- `Game::get_moves_to_base` run with a `TotalConsumer` (which accepts every
offered move), as the list of generated moves in scan order. -/
def Game.movesToBase (g : Game) : List Move :=
  play_range.filterMap fun giver =>
    match (deskGet g.desk giver).getLast? with
    | none => none
    | some card =>
      match g.get_base card with
      | some taker =>
        if g.is_move_forward giver taker then some ⟨giver, taker⟩ else none
      | none => none

/-- `Game::get_moves_to_cell` with a `TotalConsumer`. -/
def Game.movesToCell (g : Game) : List Move :=
  match g.get_empty_cell with
  | none => []
  | some taker =>
    pile_range.filterMap fun giver =>
      if (deskGet g.desk giver).length > 0 && g.is_move_forward giver taker
      then some ⟨giver, taker⟩ else none

/-- `Game::get_moves_to_pile` with a `TotalConsumer`: cascades of more than
one card first, then occupied cells. -/
def Game.movesToPile (g : Game) : List Move :=
  match g.get_empty_pile with
  | none => []
  | some taker =>
    (pile_range.filterMap fun giver =>
      if (deskGet g.desk giver).length > 1 && g.is_move_forward giver taker
      then some ⟨giver, taker⟩ else none)
    ++ cell_range.filterMap fun giver =>
      if (deskGet g.desk giver).length > 0 && g.is_move_forward giver taker
      then some ⟨giver, taker⟩ else none

/-- `Game::get_moves_to_tableau` with a `TotalConsumer`: play spots onto
cascade tops, then foundations onto cascade tops for unsafe ranks. -/
def Game.movesToTableau (g : Game) : List Move :=
  (play_range.flatMap fun giver =>
    match (deskGet g.desk giver).getLast? with
    | none => []
    | some free_card =>
      pile_range.filterMap fun taker =>
        match (deskGet g.desk taker).getLast? with
        | none => none
        | some pile_card =>
          if (giver != taker) && is_tableau pile_card free_card
              && g.is_move_forward giver taker
          then some ⟨giver, taker⟩ else none)
  ++ base_range.flatMap fun giver =>
    match (deskGet g.desk giver).getLast? with
    | none => []
    | some free_card =>
      if g.base_min_ranks.ge free_card then []
      else
        pile_range.filterMap fun taker =>
          match (deskGet g.desk taker).getLast? with
          | none => none
          | some pile_card =>
            if is_tableau pile_card free_card && g.is_move_forward giver taker
            then some ⟨giver, taker⟩ else none

/-- `Game::get_moves` / `Game::get_all_moves`: the four producers in fixed
priority order. -/
def Game.get_all_moves (g : Game) : List Move :=
  g.movesToBase ++ g.movesToTableau ++ g.movesToCell ++ g.movesToPile

/-- `Game::has_move_to_cell` (a `SingleConsumer` accepts exactly when the
producer offers at least one move). -/
def Game.has_move_to_cell (g : Game) : Bool := !g.movesToCell.isEmpty

def Game.has_move_to_pile (g : Game) : Bool := !g.movesToPile.isEmpty

def Game.has_move_to_base (g : Game) : Bool := !g.movesToBase.isEmpty

def Game.has_move_to_tableau (g : Game) : Bool := !g.movesToTableau.isEmpty

/-- `Game::has_next_move`. -/
def Game.has_next_move (g : Game) : Bool :=
  g.has_move_to_cell || g.has_move_to_pile || g.has_move_to_base || g.has_move_to_tableau

/-- `find?` over a strictly increasing list returns the least satisfying
element. -/
theorem find?_first {p : Nat → Bool} : ∀ {l : List Nat}, l.Pairwise (· < ·) →
    ∀ {t : Nat}, l.find? p = some t →
      t ∈ l ∧ p t = true ∧ ∀ j ∈ l, j < t → p j = false := by
  intro l
  induction l with
  | nil => intro _ t h; cases h
  | cons a l' ih =>
    intro hpw t hf
    have hpw' := List.pairwise_cons.mp hpw
    cases hpa : p a with
    | true =>
      rw [List.find?_cons_of_pos _ hpa] at hf
      have ht : t = a := (Option.some_inj.mp hf).symm
      subst ht
      refine ⟨List.mem_cons_self _ _, hpa, ?_⟩
      intro j hj hlt
      rcases List.mem_cons.mp hj with rfl | hj'
      · omega
      · exact absurd (hpw'.1 j hj') (by omega)
    | false =>
      rw [List.find?_cons_of_neg _ (by simp [hpa])] at hf
      obtain ⟨hmem, hpt, hleast⟩ := ih hpw'.2 hf
      refine ⟨List.mem_cons_of_mem _ hmem, hpt, ?_⟩
      intro j hj hlt
      rcases List.mem_cons.mp hj with rfl | hj'
      · exact hpa
      · exact hleast j hj' hlt

/-- C10: every move generated by `get_moves_to_cell` takes to the
lowest-indexed empty free cell, and every move generated by
`get_moves_to_pile` takes to the lowest-indexed empty cascade; in particular
all moves of either kind from one board share a single taker spot. -/
theorem moves_to_cell_pile_lowest_taker (g : Game) (mv : Move) :
    (mv ∈ g.movesToCell →
      mv.taker ∈ cell_range ∧ deskGet g.desk mv.taker = [] ∧
        (∀ j ∈ cell_range, j < mv.taker → deskGet g.desk j ≠ []) ∧
        ∀ mv2 ∈ g.movesToCell, mv2.taker = mv.taker) ∧
    (mv ∈ g.movesToPile →
      mv.taker ∈ pile_range ∧ deskGet g.desk mv.taker = [] ∧
        (∀ j ∈ pile_range, j < mv.taker → deskGet g.desk j ≠ []) ∧
        ∀ mv2 ∈ g.movesToPile, mv2.taker = mv.taker) := by
  have hcellmem : ∀ {t : Nat}, g.get_empty_cell = some t → ∀ mv2 ∈ g.movesToCell,
      mv2.taker = t := by
    intro t ht mv2 hm
    unfold Game.movesToCell at hm
    rw [ht] at hm
    obtain ⟨giver, _, hsome⟩ := List.mem_filterMap.mp hm
    by_cases hc : ((deskGet g.desk giver).length > 0 && g.is_move_forward giver t) = true
    · rw [if_pos hc] at hsome
      rw [← Option.some_inj.mp hsome]
    · rw [if_neg hc] at hsome
      cases hsome
  have hpilemem : ∀ {t : Nat}, g.get_empty_pile = some t → ∀ mv2 ∈ g.movesToPile,
      mv2.taker = t := by
    intro t ht mv2 hm
    unfold Game.movesToPile at hm
    rw [ht] at hm
    rcases List.mem_append.mp hm with hm' | hm' <;>
    · obtain ⟨giver, _, hsome⟩ := List.mem_filterMap.mp hm'
      split at hsome
      · rw [← Option.some_inj.mp hsome]
      · cases hsome
  constructor
  · intro hm
    rcases ht : g.get_empty_cell with _ | t
    · unfold Game.movesToCell at hm
      rw [ht] at hm
      cases hm
    · have htake := hcellmem ht mv hm
      unfold Game.get_empty_cell at ht
      obtain ⟨hmem, hemp, hlow⟩ := find?_first (by decide) ht
      subst htake
      refine ⟨hmem, List.isEmpty_iff.mp hemp, ?_, hcellmem ht⟩
      intro j hj hlt
      intro hne
      have := hlow j hj hlt
      rw [hne] at this
      simp at this
  · intro hm
    rcases ht : g.get_empty_pile with _ | t
    · unfold Game.movesToPile at hm
      rw [ht] at hm
      cases hm
    · have htake := hpilemem ht mv hm
      unfold Game.get_empty_pile at ht
      obtain ⟨hmem, hemp, hlow⟩ := find?_first (by decide) ht
      subst htake
      refine ⟨hmem, List.isEmpty_iff.mp hemp, ?_, hpilemem ht⟩
      intro j hj hlt
      intro hne
      have := hlow j hj hlt
      rw [hne] at this
      simp at this

/-- Board for the C10 witness: one two-card cascade, everything else empty. -/
def c10Game : Game :=
  { desk := [[], [], [], [], [], [], [], [], [9, 0], [], [], [], [], [], [], []], path := [] }

/-- Witness for `moves_to_cell_pile_lowest_taker`. -/
theorem moves_to_cell_pile_lowest_taker_witness :
    (⟨8, 4⟩ : Move) ∈ c10Game.movesToCell ∧ (⟨8, 9⟩ : Move) ∈ c10Game.movesToPile ∧
      (⟨8, 4⟩ : Move).taker ∈ cell_range ∧ deskGet c10Game.desk 4 = [] ∧
      (⟨8, 9⟩ : Move).taker ∈ pile_range ∧ deskGet c10Game.desk 9 = [] := by
  have h1 := (moves_to_cell_pile_lowest_taker c10Game ⟨8, 4⟩).1 (by decide)
  have h2 := (moves_to_cell_pile_lowest_taker c10Game ⟨8, 9⟩).2 (by decide)
  exact ⟨by decide, by decide, h1.1, h1.2.1, h2.1, h2.2.1⟩

/-! ## util/grader.rs -/

/-- `Grader<K, V>` at `K = usize` (as the Solver instantiates it): a
`BTreeMap<usize, Vec<V>>`, modeled as an association list kept sorted by
strictly increasing grade. -/
structure Grader (V : Type) where
  data : List (Nat × List V)
deriving DecidableEq

/-- `Grader::new()`. -/
def Grader.empty (V : Type) : Grader V := ⟨[]⟩

/-- `BTreeMap::entry(grade).or_insert_with(Vec::new)` followed by `push`. -/
def addData {V : Type} : List (Nat × List V) → Nat → V → List (Nat × List V)
  | [], k, v => [(k, [v])]
  | (k', row) :: rest, k, v =>
    if k < k' then (k, [v]) :: (k', row) :: rest
    else if k = k' then (k', row ++ [v]) :: rest
    else (k', row) :: addData rest k v

/-- `Grader::add`. -/
def Grader.add {V : Type} (G : Grader V) (k : Nat) (v : V) : Grader V :=
  ⟨addData G.data k v⟩

/-- `Grader::grades()`: occupied grades in ascending order. -/
def Grader.grades {V : Type} (G : Grader V) : List Nat := G.data.map fun e => e.1

/-- `Grader::len()`. -/
def Grader.len {V : Type} (G : Grader V) : Nat :=
  (G.data.map fun e => e.2.length).sum

/-- `Grader::grade_num()`. -/
def Grader.grade_num {V : Type} (G : Grader V) : Nat := G.data.length

/-- `Grader::split_off`: remove the grade's bucket, return its first `limit`
values, and re-insert the excess (if any) under the same grade. -/
def splitOffData {V : Type} : List (Nat × List V) → Nat → Nat →
    Option (List V × List (Nat × List V))
  | [], _, _ => none
  | (k', row) :: rest, k, limit =>
    if k' = k then
      some (row.take limit,
        if row.length > limit then (k', row.drop limit) :: rest else rest)
    else
      match splitOffData rest k limit with
      | some (r, rest') => some (r, (k', row) :: rest')
      | none => none

def Grader.splitOff {V : Type} (G : Grader V) (k limit : Nat) :
    Option (List V × Grader V) :=
  match splitOffData G.data k limit with
  | some (r, d) => some (r, ⟨d⟩)
  | none => none

/-- Bucket lookup (`BTreeMap::get`, with the empty list for an absent key). -/
def lookupData {V : Type} : List (Nat × List V) → Nat → List V
  | [], _ => []
  | (k', row) :: rest, k => if k' = k then row else lookupData rest k

def Grader.lookup {V : Type} (G : Grader V) (k : Nat) : List V :=
  lookupData G.data k

/-- A grader built by a sequence of `add` calls from empty. -/
def graderOfOps {V : Type} (ops : List (Nat × V)) : Grader V :=
  ops.foldl (fun G kv => G.add kv.1 kv.2) (Grader.empty V)

def SortedKeys {V : Type} (d : List (Nat × List V)) : Prop :=
  (d.map fun e => e.1).Pairwise (· < ·)

def NoEmptyRows {V : Type} (d : List (Nat × List V)) : Prop :=
  ∀ e ∈ d, e.2 ≠ []

theorem mem_addData {V : Type} : ∀ (d : List (Nat × List V)) (k : Nat) (v : V)
    (e : Nat × List V), e ∈ addData d k v → e.1 = k ∨ e ∈ d := by
  intro d
  induction d with
  | nil =>
    intro k v e he
    unfold addData at he
    rw [List.mem_singleton] at he
    subst he
    exact Or.inl rfl
  | cons hd rest ih =>
    intro k v e he
    obtain ⟨k', row⟩ := hd
    unfold addData at he
    by_cases h1 : k < k'
    · rw [if_pos h1] at he
      rcases List.mem_cons.mp he with rfl | he'
      · exact Or.inl rfl
      · exact Or.inr he'
    · rw [if_neg h1] at he
      by_cases h2 : k = k'
      · rw [if_pos h2] at he
        rcases List.mem_cons.mp he with rfl | he'
        · subst h2
          exact Or.inl rfl
        · exact Or.inr (List.mem_cons_of_mem _ he')
      · rw [if_neg h2] at he
        rcases List.mem_cons.mp he with rfl | he'
        · exact Or.inr (List.mem_cons_self _ _)
        · rcases ih k v e he' with h | h
          · exact Or.inl h
          · exact Or.inr (List.mem_cons_of_mem _ h)

theorem sortedKeys_addData {V : Type} : ∀ (d : List (Nat × List V)) (k : Nat) (v : V),
    SortedKeys d → SortedKeys (addData d k v) := by
  intro d
  induction d with
  | nil =>
    intro k v _
    exact List.pairwise_singleton _ _
  | cons e rest ih =>
    intro k v hs
    obtain ⟨k', row⟩ := e
    unfold SortedKeys at hs
    rw [List.map_cons, List.pairwise_cons] at hs
    unfold addData
    by_cases h1 : k < k'
    · rw [if_pos h1]
      unfold SortedKeys
      rw [List.map_cons, List.pairwise_cons]
      constructor
      · intro a ha
        rw [List.map_cons, List.mem_cons] at ha
        rcases ha with rfl | ha'
        · exact h1
        · exact Nat.lt_trans h1 (hs.1 a ha')
      · rw [List.map_cons, List.pairwise_cons]
        exact hs
    · rw [if_neg h1]
      by_cases h2 : k = k'
      · rw [if_pos h2]
        unfold SortedKeys
        rw [List.map_cons, List.pairwise_cons]
        exact hs
      · rw [if_neg h2]
        unfold SortedKeys
        rw [List.map_cons, List.pairwise_cons]
        constructor
        · intro a ha
          rw [List.mem_map] at ha
          obtain ⟨e', he', rfl⟩ := ha
          have hmem := mem_addData rest k v e' he'
          rcases hmem with rfl | hmem'
          · omega
          · exact hs.1 e'.1 (List.mem_map.mpr ⟨e', hmem', rfl⟩)
        · exact ih k v hs.2

theorem noEmptyRows_addData {V : Type} : ∀ (d : List (Nat × List V)) (k : Nat) (v : V),
    NoEmptyRows d → NoEmptyRows (addData d k v) := by
  intro d
  induction d with
  | nil =>
    intro k v _ e he
    unfold addData at he
    rw [List.mem_singleton] at he
    subst he
    simp
  | cons hd rest ih =>
    intro k v hne e he
    obtain ⟨k', row⟩ := hd
    unfold addData at he
    by_cases h1 : k < k'
    · rw [if_pos h1] at he
      rcases List.mem_cons.mp he with rfl | he'
      · simp
      · exact hne e he'
    · rw [if_neg h1] at he
      by_cases h2 : k = k'
      · rw [if_pos h2] at he
        rcases List.mem_cons.mp he with rfl | he'
        · simp only
          intro hc
          have := hne (k', row) (List.mem_cons_self _ _)
          rw [List.append_eq_nil] at hc
          exact this hc.1
        · exact hne e (List.mem_cons_of_mem _ he')
      · rw [if_neg h2] at he
        rcases List.mem_cons.mp he with rfl | he'
        · exact hne (k', row) (List.mem_cons_self _ _)
        · exact ih k v (fun e2 h2m => hne e2 (List.mem_cons_of_mem _ h2m)) e he'

theorem lookupData_cons {V : Type} (k' : Nat) (row : List V) (rest : List (Nat × List V))
    (k2 : Nat) :
    lookupData ((k', row) :: rest) k2 = if k' = k2 then row else lookupData rest k2 := rfl

theorem lookupData_eq_nil_of_lt {V : Type} : ∀ (d : List (Nat × List V)) (k : Nat),
    (∀ e ∈ d, k < e.1) → lookupData d k = [] := by
  intro d
  induction d with
  | nil => intro k _; rfl
  | cons hd rest ih =>
    intro k h
    obtain ⟨k', row⟩ := hd
    rw [lookupData_cons, if_neg (by have := h (k', row) (List.mem_cons_self _ _); omega)]
    exact ih k fun e he => h e (List.mem_cons_of_mem _ he)

theorem lookupData_addData {V : Type} : ∀ (d : List (Nat × List V)) (k k2 : Nat) (v : V),
    SortedKeys d →
    lookupData (addData d k v) k2
      = if k2 = k then lookupData d k2 ++ [v] else lookupData d k2 := by
  intro d
  induction d with
  | nil =>
    intro k k2 v _
    show (if k = k2 then [v] else []) = if k2 = k then [] ++ [v] else []
    by_cases h : k2 = k
    · rw [if_pos h.symm, if_pos h]
      rfl
    · rw [if_neg (fun he => h he.symm), if_neg h]
  | cons hd rest ih =>
    intro k k2 v hs
    obtain ⟨k', row⟩ := hd
    have hs' : SortedKeys rest := by
      unfold SortedKeys at hs ⊢
      rw [List.map_cons, List.pairwise_cons] at hs
      exact hs.2
    have hbelow : ∀ a ∈ (rest.map fun e => e.1), k' < a := by
      unfold SortedKeys at hs
      rw [List.map_cons, List.pairwise_cons] at hs
      exact hs.1
    unfold addData
    by_cases h1 : k < k'
    · rw [if_pos h1, lookupData_cons]
      by_cases h : k2 = k
      · rw [if_pos (h.symm), if_pos h]
        have hnil : lookupData ((k', row) :: rest) k2 = [] := by
          apply lookupData_eq_nil_of_lt
          intro e he
          rcases List.mem_cons.mp he with rfl | he'
          · omega
          · have := hbelow e.1 (List.mem_map.mpr ⟨e, he', rfl⟩)
            omega
        rw [hnil]
        rfl
      · rw [if_neg (fun he => h he.symm), if_neg h]
    · rw [if_neg h1]
      by_cases h2 : k = k'
      · rw [if_pos h2, lookupData_cons, lookupData_cons]
        by_cases h : k2 = k
        · rw [if_pos (by omega), if_pos h, if_pos (by omega)]
        · rw [if_neg (by omega), if_neg h, if_neg (by omega)]
      · rw [if_neg h2, lookupData_cons, lookupData_cons]
        by_cases hk2 : k' = k2
        · rw [if_pos hk2, if_neg (by omega), if_pos hk2]
        · rw [if_neg hk2, if_neg hk2, ih k k2 v hs']

theorem foldl_add_invariants {V : Type} : ∀ (ops : List (Nat × V)) (G : Grader V),
    SortedKeys G.data → NoEmptyRows G.data →
    SortedKeys (ops.foldl (fun G kv => G.add kv.1 kv.2) G).data ∧
      NoEmptyRows (ops.foldl (fun G kv => G.add kv.1 kv.2) G).data := by
  intro ops
  induction ops with
  | nil => intro G hs hn; exact ⟨hs, hn⟩
  | cons op rest ih =>
    intro G hs hn
    exact ih (G.add op.1 op.2) (sortedKeys_addData G.data op.1 op.2 hs)
      (noEmptyRows_addData G.data op.1 op.2 hn)

theorem sortedKeys_graderOfOps {V : Type} (ops : List (Nat × V)) :
    SortedKeys (graderOfOps ops).data :=
  (foldl_add_invariants ops (Grader.empty V) List.Pairwise.nil (fun _ h => absurd h
    (List.not_mem_nil _))).1

theorem noEmptyRows_graderOfOps {V : Type} (ops : List (Nat × V)) :
    NoEmptyRows (graderOfOps ops).data :=
  (foldl_add_invariants ops (Grader.empty V) List.Pairwise.nil (fun _ h => absurd h
    (List.not_mem_nil _))).2

theorem lookup_foldl_add {V : Type} : ∀ (ops : List (Nat × V)) (G : Grader V) (k : Nat),
    SortedKeys G.data →
    (ops.foldl (fun G kv => G.add kv.1 kv.2) G).lookup k
      = G.lookup k ++ (ops.filter fun e => e.1 == k).map fun e => e.2 := by
  intro ops
  induction ops with
  | nil => intro G k _; simp
  | cons op rest ih =>
    intro G k hs
    obtain ⟨k1, v1⟩ := op
    show (rest.foldl (fun G kv => G.add kv.1 kv.2) (G.add k1 v1)).lookup k
      = G.lookup k ++ ((((k1, v1) :: rest).filter fun e => e.1 == k).map fun e => e.2)
    rw [ih (G.add k1 v1) k (sortedKeys_addData G.data k1 v1 hs)]
    have hl : (G.add k1 v1).lookup k
        = if k = k1 then G.lookup k ++ [v1] else G.lookup k :=
      lookupData_addData G.data k1 k v1 hs
    rw [List.filter_cons]
    by_cases h : k = k1
    · rw [hl, if_pos h]
      rw [show ((k1, v1).1 == k) = true by simp [h.symm]]
      simp
    · rw [hl, if_neg h]
      rw [show ((k1, v1).1 == k) = false by simp; omega]
      simp

theorem grades_head_min {V : Type} (G : Grader V) (hs : SortedKeys G.data) :
    ∀ g1 ∈ G.grades, (∀ g2 ∈ G.grades, g1 ≤ g2) → G.grades.head? = some g1 := by
  intro g1 hmem hmin
  unfold Grader.grades at *
  unfold SortedKeys at hs
  cases hd : G.data with
  | nil => rw [hd] at hmem; cases hmem
  | cons e rest =>
    rw [hd] at hmem hmin hs
    rw [List.map_cons] at hmem hmin hs ⊢
    rw [List.pairwise_cons] at hs
    rcases List.mem_cons.mp hmem with rfl | hmem'
    · rfl
    · have h1 := hs.1 g1 hmem'
      have h2 := hmin e.1 (List.mem_cons_self _ _)
      omega

theorem splitOffData_none_iff {V : Type} : ∀ (d : List (Nat × List V)) (k lim : Nat),
    splitOffData d k lim = none ↔ k ∉ d.map fun e => e.1 := by
  intro d
  induction d with
  | nil =>
    intro k lim
    simp [splitOffData]
  | cons e rest ih =>
    intro k lim
    obtain ⟨k', row⟩ := e
    unfold splitOffData
    by_cases h : k' = k
    · rw [if_pos h]
      simp [h]
    · rw [if_neg h]
      rcases hrec : splitOffData rest k lim with _ | ⟨r, rest'⟩
      · constructor
        · intro _ hk
          rw [List.map_cons, List.mem_cons] at hk
          rcases hk with rfl | hk'
          · exact h rfl
          · exact (ih k lim).mp hrec hk'
        · intro _
          rfl
      · constructor
        · intro hx
          have hx' : (some (r, (k', row) :: rest')
              : Option (List V × List (Nat × List V))) = none := hx
          cases hx'
        · intro hk
          exfalso
          apply hk
          rw [List.map_cons, List.mem_cons]
          right
          by_contra hk2
          rw [(ih k lim).mpr hk2] at hrec
          cases hrec

theorem splitOffData_some {V : Type} : ∀ (d : List (Nat × List V)) (k lim : Nat)
    (r : List V) (d' : List (Nat × List V)),
    SortedKeys d → splitOffData d k lim = some (r, d') →
    r = (lookupData d k).take lim
    ∧ lookupData d' k = (lookupData d k).drop lim
    ∧ (∀ k2, k2 ≠ k → lookupData d' k2 = lookupData d k2)
    ∧ (k ∈ d'.map (fun e => e.1) ↔ lim < (lookupData d k).length)
    ∧ (∀ k2 ∈ d'.map (fun e => e.1), k2 ∈ d.map (fun e => e.1))
    ∧ SortedKeys d' := by
  intro d
  induction d with
  | nil =>
    intro k lim r d' _ h
    have h' : (none : Option (List V × List (Nat × List V))) = some (r, d') := h
    cases h'
  | cons e rest ih =>
    intro k lim r d' hs h
    obtain ⟨k', row⟩ := e
    have hs2 := hs
    unfold SortedKeys at hs2
    rw [List.map_cons, List.pairwise_cons] at hs2
    have hs' : SortedKeys rest := hs2.2
    have hklt : ∀ a ∈ List.map (fun e => e.1) rest, k' < a := hs2.1
    unfold splitOffData at h
    by_cases hk : k' = k
    · rw [if_pos hk] at h
      subst hk
      have h' := Option.some.inj h
      injection h' with hr hd
      subst hr
      subst hd
      rw [lookupData_cons, if_pos rfl]
      by_cases hlen : lim < row.length
      · rw [if_pos hlen]
        refine ⟨rfl, ?_, ?_, ?_, ?_, ?_⟩
        · rw [lookupData_cons, if_pos rfl]
        · intro k2 hk2
          rw [lookupData_cons, lookupData_cons,
            if_neg (fun he => hk2 he.symm), if_neg (fun he => hk2 he.symm)]
        · simp [hlen]
        · exact fun k2 hk2 => hk2
        · exact hs
      · rw [if_neg hlen]
        have hnil : lookupData rest k' = [] :=
          lookupData_eq_nil_of_lt rest k' (by
            intro e2 he2
            exact hklt e2.1 (List.mem_map.mpr ⟨e2, he2, rfl⟩))
        refine ⟨rfl, ?_, ?_, ?_, ?_, ?_⟩
        · rw [hnil, List.drop_eq_nil_of_le (by omega)]
        · intro k2 hk2
          rw [lookupData_cons, if_neg (fun he => hk2 he.symm)]
        · apply iff_of_false
          · intro hmemk
            have := hklt k' hmemk
            omega
          · omega
        · exact fun k2 hk2 => List.mem_cons_of_mem _ hk2
        · exact hs'
    · rw [if_neg hk] at h
      rcases hrec : splitOffData rest k lim with _ | ⟨r0, rest0⟩
      · rw [hrec] at h
        cases h
      · rw [hrec] at h
        have h' := Option.some.inj h
        injection h' with hr hd
        subst hr
        subst hd
        obtain ⟨ih1, ih2, ih3, ih4, ih5, ih6⟩ := ih k lim r0 rest0 hs' hrec
        rw [lookupData_cons, if_neg hk]
        refine ⟨ih1, ?_, ?_, ?_, ?_, ?_⟩
        · rw [lookupData_cons, if_neg hk]
          exact ih2
        · intro k2 hk2
          rw [lookupData_cons, lookupData_cons]
          by_cases he : k' = k2
          · rw [if_pos he, if_pos he]
          · rw [if_neg he, if_neg he]
            exact ih3 k2 hk2
        · rw [List.map_cons, List.mem_cons]
          constructor
          · intro hmk
            rcases hmk with hmk | hmk
            · exact absurd hmk.symm hk
            · exact ih4.mp hmk
          · intro hlt
            exact Or.inr (ih4.mpr hlt)
        · intro k2 hk2
          rw [List.map_cons, List.mem_cons] at hk2 ⊢
          rcases hk2 with rfl | hk2
          · exact Or.inl rfl
          · exact Or.inr (ih5 k2 hk2)
        · unfold SortedKeys
          rw [List.map_cons, List.pairwise_cons]
          exact ⟨fun a ha => hklt a (ih5 a ha), ih6⟩

/-- **C8.** For every `Grader` built by any interleaving of `add` calls:
`grades()` yields the smallest occupied grade first; each bucket holds its
values oldest-inserted first (lookup equals the filter of the insertion
sequence); `split_off(g, limit)` returns `None` exactly for an absent grade,
and otherwise removes and returns the first (oldest) `limit` values of grade
`g`'s bucket, leaves exactly the excess under the same grade (the grade
disappearing iff the bucket was emptied), and leaves every other grade
untouched. -/
theorem grader_spec {V : Type} (ops : List (Nat × V)) (k lim : Nat) :
    (∀ g1 ∈ (graderOfOps ops).grades, (∀ g2 ∈ (graderOfOps ops).grades, g1 ≤ g2) →
      (graderOfOps ops).grades.head? = some g1)
    ∧ (graderOfOps ops).lookup k = ((ops.filter fun e => e.1 == k).map fun e => e.2)
    ∧ ((graderOfOps ops).splitOff k lim = none ↔ k ∉ (graderOfOps ops).grades)
    ∧ ∀ r G', (graderOfOps ops).splitOff k lim = some (r, G') →
        r = ((graderOfOps ops).lookup k).take lim
        ∧ G'.lookup k = ((graderOfOps ops).lookup k).drop lim
        ∧ (∀ k2, k2 ≠ k → G'.lookup k2 = (graderOfOps ops).lookup k2)
        ∧ (k ∈ G'.grades ↔ lim < ((graderOfOps ops).lookup k).length) := by
  refine ⟨?_, ?_, ?_, ?_⟩
  · exact fun g1 hm hmin => grades_head_min (graderOfOps ops)
      (sortedKeys_graderOfOps ops) g1 hm hmin
  · have hl := lookup_foldl_add ops (Grader.empty V) k List.Pairwise.nil
    simpa using hl
  · unfold Grader.splitOff
    rcases hsd : splitOffData (graderOfOps ops).data k lim with _ | ⟨r0, d0⟩
    · exact iff_of_true rfl ((splitOffData_none_iff _ k lim).mp hsd)
    · apply iff_of_false
      · intro hc
        have hc' : (some (r0, (⟨d0⟩ : Grader V)) : Option (List V × Grader V))
            = none := hc
        cases hc'
      · intro hnot
        have hn := (splitOffData_none_iff (graderOfOps ops).data k lim).mpr hnot
        rw [hn] at hsd
        cases hsd
  · intro r G' hsp
    unfold Grader.splitOff at hsp
    rcases hsd : splitOffData (graderOfOps ops).data k lim with _ | ⟨r0, d0⟩
    · rw [hsd] at hsp
      have hsp' : (none : Option (List V × Grader V)) = some (r, G') := hsp
      cases hsp'
    · rw [hsd] at hsp
      have hsp' : (some (r0, (⟨d0⟩ : Grader V)) : Option (List V × Grader V))
          = some (r, G') := hsp
      injection Option.some.inj hsp' with hr hG
      subst hr
      subst hG
      obtain ⟨p1, p2, p3, p4, _, _⟩ := splitOffData_some (graderOfOps ops).data k lim
        r0 d0 (sortedKeys_graderOfOps ops) hsd
      exact ⟨p1, p2, p3, p4⟩

/-- Witness for C8 on the insertion sequence (2,10), (1,20), (3,30), (1,40):
the head grade is 1, bucket 1 holds [20, 40] in insertion order, grade 7 is
absent, and split_off(1, 1) returns the oldest value [20]. -/
theorem grader_spec_witness :
    (graderOfOps [(2,10),(1,20),(3,30),(1,40)] : Grader Nat).grades.head? = some 1
    ∧ (graderOfOps [(2,10),(1,20),(3,30),(1,40)] : Grader Nat).lookup 1
        = ((([(2,10),(1,20),(3,30),(1,40)] : List (Nat × Nat)).filter
            fun e => e.1 == 1).map fun e => e.2)
    ∧ (graderOfOps [(2,10),(1,20),(3,30),(1,40)] : Grader Nat).splitOff 7 1 = none
    ∧ [20] = (((graderOfOps [(2,10),(1,20),(3,30),(1,40)] : Grader Nat).lookup 1).take 1) := by
  have h := grader_spec ([(2,10),(1,20),(3,30),(1,40)] : List (Nat × Nat)) 1 1
  have h7 := grader_spec ([(2,10),(1,20),(3,30),(1,40)] : List (Nat × Nat)) 7 1
  refine ⟨h.1 1 (by decide) (by decide), h.2.1, h7.2.2.1.mpr (by decide), ?_⟩
  exact (h.2.2.2 [20] ⟨[(1,[40]),(2,[10]),(3,[30])]⟩ (by decide)).1

/-! ## freecell/solver.rs -/

/-- `game_priority` of solver.rs. -/
def game_priority (game : Game) : Nat :=
  let len := game.path.length
  if len < 8 then 0
  else if len > 88 then 10 * game.count_unsolved + 9 * game.count_locks + len * 8
  else 10 * game.count_unsolved + 9 * game.count_locks + len * 4

/-- Modelled from the spec: `Game::unfold` is called by `Solver::next` after a
kept path has been recorded and banked, but the sources under verification do
not define it.  Spec step 3c ends that branch with "insert the extended Path
into the Frontier under a priority grade, then continue", prescribing no
further board change, so the call is modelled as the identity. -/
def Game.unfold (g : Game) : Game := g

/-- The Visited map `Done = HashMap<Key64, usize>`, modelled as an association
list with unique keys (the solver only gets, inserts and filters it, so its
iteration order is irrelevant). -/
abbrev DoneMap := List (Key × Nat)

/-- `HashMap::get`. -/
def doneGet (d : DoneMap) (k : Key) : Option Nat :=
  match d.find? fun e => e.1 == k with
  | some e => some e.2
  | none => none

/-- `HashMap::insert` (replace the value of an existing key, else append). -/
def doneInsert (d : DoneMap) (k : Key) (v : Nat) : DoneMap :=
  if d.any fun e => e.1 == k then
    d.map fun e => if e.1 == k then (k, v) else e
  else d ++ [(k, v)]

/-- `HashMap::retain(|_, len| *len < n)`. -/
def doneFilter (d : DoneMap) (n : Nat) : DoneMap :=
  d.filter fun e => decide (e.2 < n)

/-- The inner `Vec::retain` of `clean_bank`: keep the paths whose replayed
board's estimate stays below the limit, threading the scratch game exactly as
the Rust closure mutates it. -/
def cleanRow (lim : Nat) : List Path → Game → List Path × Game
  | [], g => ([], g)
  | p :: rest, g =>
    let g1 := g.set_path p
    let r := cleanRow lim rest g1
    if g1.estimate_path_len < lim then (p :: r.1, r.2) else r

/-- The `BTreeMap::retain` of `clean_bank`: rows in ascending grade order,
emptied rows dropped. -/
def cleanData (lim : Nat) :
    List (Nat × List Path) → Game → List (Nat × List Path) × Game
  | [], g => ([], g)
  | (k, row) :: rest, g =>
    let r1 := cleanRow lim row g
    let r2 := cleanData lim rest r1.2
    if r1.1.length > 0 then ((k, r1.1) :: r2.1, r2.2) else r2

/-- `clean_bank`: prune banked paths whose estimate is not strictly below the
limit; returns the new bank, the threaded scratch game and the removed
count. -/
def clean_bank (bank : Grader Path) (game : Game) (path_upper_limit : Nat) :
    Grader Path × Game × Nat :=
  let old_len := bank.len
  let r := cleanData path_upper_limit bank.data game
  (⟨r.1⟩, r.2, old_len - Grader.len ⟨r.1⟩)

/-- The `Solver` struct: frontier bank, Visited map, scratch game and best
solution. -/
structure Solver where
  bank : Grader Path
  done : DoneMap
  game : Game
  path : Option Path
deriving DecidableEq

/-- `Solver::deal`, with the dealt card order passed in directly: the deck
collaborator `deck::deal(seed)` shuffles with `f64` arithmetic outside the
scope of this model, and its output for seed 1377011176 is documented by the
unit test of deck.rs. -/
def Solver.deal (cards : List Nat) : Solver :=
  let g1 := ((Game.new.deal cards).move_cards_auto).1
  { bank := (Grader.empty Path).add 0 g1.path
    done := [(g1.get_invariant, g1.path.length)]
    game := g1.rewind
    path := none }

/-- Result of the expansion loops inside `Solver::next`: either the solved
early return was taken, or the loop ran to completion with the mutated
state. -/
inductive StepRes where
  | solved (s : Solver)
  | cont (s : Solver)
deriving DecidableEq

/-- The `for mv in moves` loop of `Solver::next`: backtrack to the mark, play
the move plus auto-promotions, prune on the estimate, run the Visited-map
keep/discard analysis, and take the solved early return when it fires.
`inputRest` is the not-yet-popped remainder of the batch in pop (LIFO)
order. -/
def runMoves (limit grade : Nat) (prioritize : Bool) (mark : Nat)
    (inputRest : List Path) : List Move → Solver → StepRes
  | [], s => .cont s
  | mv :: rest, s =>
    let g1 := (((s.game.backward mark).move_card mv.giver mv.taker).move_cards_auto).1
    let estm := g1.estimate_path_len
    if limit ≤ estm then
      runMoves limit grade prioritize mark inputRest rest { s with game := g1 }
    else
      let s1 :=
        if g1.has_next_move then
          if (match doneGet s.done g1.get_invariant with
              | none => true
              | some min_len => decide (estm < min_len)) then
            { s with
              game := g1.unfold
              done := doneInsert s.done g1.get_invariant estm
              bank := s.bank.add (if prioritize then game_priority g1 else 0) g1.path }
          else { s with game := g1 }
        else { s with game := g1 }
      let sol_len := s1.game.path.length
      if decide (sol_len < limit) && s1.game.is_done then
        let bank2 := inputRest.foldl (fun b p => b.add grade p) s1.bank
        let r := clean_bank bank2 s1.game sol_len
        .solved { bank := r.1, done := doneFilter s1.done sol_len,
                  game := r.2.1, path := some s1.game.path }
      else
        runMoves limit grade prioritize mark inputRest rest s1

/-- The `while let Some(path) = input.pop()` loop of `Solver::next`, with the
batch given in pop (LIFO) order: replay the path, expand every legal move. -/
def runPaths (limit grade : Nat) (prioritize : Bool) :
    List Path → Solver → Option Bool × Solver
  | [], s => (some false, s)
  | p :: rest, s =>
    let g := s.game.set_path p
    match runMoves limit grade prioritize p.length rest g.get_all_moves
        { s with game := g } with
    | .solved s1 => (some true, s1)
    | .cont s1 => runPaths limit grade prioritize rest s1

/-- `Solver::next(path_upper_limit, input_upper_limit)` (the `debug_output`
branches only print).  Returns the Rust return value with the mutated
solver. -/
def Solver.next (s : Solver) (path_upper_limit input_upper_limit : Nat) :
    Option Bool × Solver :=
  let limit := match s.path with
    | some p => min path_upper_limit p.length
    | none => path_upper_limit
  match s.bank.grades.head? with
  | none => (none, s)
  | some grade =>
    match s.bank.splitOff grade input_upper_limit with
    | none => (none, s)
    | some (input, bank1) =>
      runPaths limit grade (decide (0 < bank1.len)) input.reverse
        { s with bank := bank1 }

theorem is_done_play_empty {g : Game} (h : g.is_done = true) :
    ∀ i ∈ play_range, deskGet g.desk i = [] := by
  intro i hi
  unfold Game.is_done at h
  rw [List.all_eq_true] at h
  have hh := h i hi
  simpa using hh

theorem pile_range_subset_play {i : Nat} (h : i ∈ pile_range) : i ∈ play_range := by
  rw [mem_pile_range] at h
  rw [mem_play_range]
  revert h
  show 8 ≤ i ∧ i < 16 → 4 ≤ i ∧ i < 16
  omega

theorem cell_range_subset_play {i : Nat} (h : i ∈ cell_range) : i ∈ play_range := by
  rw [mem_cell_range] at h
  rw [mem_play_range]
  revert h
  show 4 ≤ i ∧ i < 8 → 4 ≤ i ∧ i < 16
  omega

theorem has_next_move_of_is_done {g : Game} (h : g.is_done = true) :
    g.has_next_move = false := by
  have hp := is_done_play_empty h
  have hpile : ∀ i ∈ pile_range, deskGet g.desk i = [] :=
    fun i hi => hp i (pile_range_subset_play hi)
  have hcell : ∀ i ∈ cell_range, deskGet g.desk i = [] :=
    fun i hi => hp i (cell_range_subset_play hi)
  have hbase : g.movesToBase = [] := by
    unfold Game.movesToBase
    rw [List.filterMap_eq_nil_iff]
    intro giver hg
    rw [hp giver hg]
    rfl
  have htab : g.movesToTableau = [] := by
    unfold Game.movesToTableau
    rw [List.append_eq_nil]
    constructor
    · rw [List.flatMap_eq_nil_iff]
      intro giver hg
      rw [hp giver hg]
      rfl
    · rw [List.flatMap_eq_nil_iff]
      intro giver _
      rcases hc : (deskGet g.desk giver).getLast? with _ | c
      · rfl
      · simp only
        by_cases hge : g.base_min_ranks.ge c
        · rw [if_pos hge]
        · rw [if_neg hge]
          rw [List.filterMap_eq_nil_iff]
          intro taker ht
          rw [hpile taker ht]
          rfl
  have hcel : g.movesToCell = [] := by
    unfold Game.movesToCell
    rcases he : g.get_empty_cell with _ | taker
    · rfl
    · simp only
      rw [List.filterMap_eq_nil_iff]
      intro giver hg
      rw [hpile giver hg]
      rfl
  have hpil : g.movesToPile = [] := by
    unfold Game.movesToPile
    rcases he : g.get_empty_pile with _ | taker
    · rfl
    · simp only
      rw [List.append_eq_nil]
      constructor
      · rw [List.filterMap_eq_nil_iff]
        intro giver hg
        rw [hpile giver hg]
        rfl
      · rw [List.filterMap_eq_nil_iff]
        intro giver hg
        rw [hcell giver hg]
        rfl
  unfold Game.has_next_move Game.has_move_to_cell Game.has_move_to_pile
    Game.has_move_to_base Game.has_move_to_tableau
  rw [hbase, htab, hcel, hpil]
  rfl

theorem estimate_of_is_done {g : Game} (h : g.is_done = true) :
    g.estimate_path_len = g.path.length := by
  have hp := is_done_play_empty h
  have hu : g.count_unsolved = 0 := by
    unfold Game.count_unsolved
    rw [List.sum_eq_zero]
    intro x hx
    rw [List.mem_map] at hx
    obtain ⟨i, hi, rfl⟩ := hx
    rw [hp i hi]
    rfl
  have hl : g.count_locks = 0 := by
    unfold Game.count_locks
    rw [List.sum_eq_zero]
    intro x hx
    rw [List.mem_map] at hx
    obtain ⟨i, hi, rfl⟩ := hx
    unfold Game.count_locks_at
    rw [hp i (pile_range_subset_play hi)]
    rfl
  unfold Game.estimate_path_len
  omega

theorem rewind_move_card {g : Game} {gv tk : Nat} (htk : tk < g.desk.length) :
    (g.move_card gv tk).rewind = g.rewind := by
  rcases hc : (deskGet g.desk gv).getLast? with _ | c
  · unfold Game.move_card
    rw [hc]
  · have hne : deskGet g.desk gv ≠ [] := by
      intro he
      rw [he] at hc
      cases hc
    have hpath : (g.move_card gv tk).path = g.path ++ [⟨gv, tk⟩] := path_move_card hne
    unfold Game.rewind
    rw [backward_of_gt (by rw [hpath]; simp)]
    rw [undo1_move_card hc htk]

theorem rewind_forward_of_takers : ∀ (p : Path) (g : Game),
    (∀ mv ∈ p, mv.taker < g.desk.length) → (g.forward p).rewind = g.rewind := by
  intro p
  induction p with
  | nil => intro g _; rfl
  | cons mv t ih =>
    intro g hkt
    rw [forward_cons]
    rw [ih _ (by
      intro m hm
      rw [length_move_card]
      exact hkt m (List.mem_cons_of_mem _ hm))]
    exact rewind_move_card (hkt mv (List.mem_cons_self _ _))

theorem rewind_rewind (g : Game) : g.rewind.rewind = g.rewind :=
  backward_backward g (Nat.le_refl 0)

theorem length_rewind (g : Game) : g.rewind.desk.length = g.desk.length :=
  length_backwardFuel _ _ _

theorem set_path_eq (g : Game) (p : Path) : g.set_path p = g.rewind.forward p := rfl

theorem cleanRow_cons (lim : Nat) (p : Path) (rest : List Path) (g : Game) :
    cleanRow lim (p :: rest) g
      = (if (g.set_path p).estimate_path_len < lim
         then (p :: (cleanRow lim rest (g.set_path p)).1,
               (cleanRow lim rest (g.set_path p)).2)
         else ((cleanRow lim rest (g.set_path p)).1,
               (cleanRow lim rest (g.set_path p)).2)) := by
  rfl

theorem cleanRow_spec (lim : Nat) : ∀ (row : List Path) (g : Game),
    (∀ p ∈ row, (g.rewind.forward p).rewind = g.rewind) →
    (cleanRow lim row g).1
      = row.filter (fun p => decide ((g.rewind.forward p).estimate_path_len < lim))
    ∧ (cleanRow lim row g).2.rewind = g.rewind := by
  intro row
  induction row with
  | nil => intro g _; exact ⟨rfl, rfl⟩
  | cons p rest ih =>
    intro g hstab
    have hg1 : (g.set_path p).rewind = g.rewind := hstab p (List.mem_cons_self _ _)
    have ihh := ih (g.set_path p) (by
      intro q hq
      rw [hg1]
      exact hstab q (List.mem_cons_of_mem _ hq))
    rw [cleanRow_cons, List.filter_cons]
    have hpred : (g.set_path p).estimate_path_len
        = (g.rewind.forward p).estimate_path_len := by rw [set_path_eq]
    have hfilter : (cleanRow lim rest (g.set_path p)).1
        = rest.filter fun q => decide ((g.rewind.forward q).estimate_path_len < lim) := by
      rw [ihh.1]
      apply List.filter_congr
      intro q _
      rw [hg1]
    by_cases hc : (g.set_path p).estimate_path_len < lim
    · rw [if_pos hc, if_pos (by rw [← hpred]; exact decide_eq_true hc)]
      exact ⟨by rw [hfilter], ihh.2.trans hg1⟩
    · rw [if_neg hc, if_neg (by rw [← hpred]; simpa using hc)]
      exact ⟨by rw [hfilter], ihh.2.trans hg1⟩

theorem cleanData_cons (lim k : Nat) (row : List Path) (rest : List (Nat × List Path))
    (g : Game) :
    cleanData lim ((k, row) :: rest) g
      = (if (cleanRow lim row g).1.length > 0
         then ((k, (cleanRow lim row g).1) ::
                 (cleanData lim rest (cleanRow lim row g).2).1,
               (cleanData lim rest (cleanRow lim row g).2).2)
         else ((cleanData lim rest (cleanRow lim row g).2).1,
               (cleanData lim rest (cleanRow lim row g).2).2)) := by
  rfl

theorem cleanData_spec (lim : Nat) : ∀ (data : List (Nat × List Path)) (g : Game),
    (∀ e ∈ data, ∀ p ∈ e.2, (g.rewind.forward p).rewind = g.rewind) →
    SortedKeys data →
    (cleanData lim data g).2.rewind = g.rewind
    ∧ (∀ k2 ∈ (cleanData lim data g).1.map (fun e => e.1), k2 ∈ data.map fun e => e.1)
    ∧ ∀ k, lookupData (cleanData lim data g).1 k
        = (lookupData data k).filter
            fun p => decide ((g.rewind.forward p).estimate_path_len < lim) := by
  intro data
  induction data with
  | nil =>
    intro g _ _
    exact ⟨rfl, fun k2 h => h, fun k => rfl⟩
  | cons e rest ih =>
    intro g hstab hs
    obtain ⟨k, row⟩ := e
    have hs2 := hs
    unfold SortedKeys at hs2
    rw [List.map_cons, List.pairwise_cons] at hs2
    have hrow := cleanRow_spec lim row g (fun p hp => hstab (k, row) (List.mem_cons_self _ _) p hp)
    have hg1 : (cleanRow lim row g).2.rewind = g.rewind := hrow.2
    have ihh := ih (cleanRow lim row g).2 (by
      intro e2 he2 p hp
      rw [hg1]
      exact hstab e2 (List.mem_cons_of_mem _ he2) p hp) hs2.2
    have ihlook : ∀ k3, lookupData (cleanData lim rest (cleanRow lim row g).2).1 k3
        = (lookupData rest k3).filter
            fun p => decide ((g.rewind.forward p).estimate_path_len < lim) := by
      intro k3
      have hh := ihh.2.2 k3
      rw [hg1] at hh
      exact hh
    rw [cleanData_cons]
    by_cases hne : (cleanRow lim row g).1.length > 0
    · rw [if_pos hne]
      refine ⟨ihh.1.trans hg1, ?_, ?_⟩
      · intro k2 hk2
        rw [List.map_cons, List.mem_cons] at hk2 ⊢
        rcases hk2 with rfl | hk2
        · exact Or.inl rfl
        · exact Or.inr (ihh.2.1 k2 hk2)
      · intro k3
        rw [lookupData_cons, lookupData_cons]
        by_cases hk : k = k3
        · rw [if_pos hk, if_pos hk]
          exact hrow.1
        · rw [if_neg hk, if_neg hk]
          exact ihlook k3
    · rw [if_neg hne]
      have hrownil : (cleanRow lim row g).1 = [] := by
        rcases hl : (cleanRow lim row g).1 with _ | ⟨a, t⟩
        · rfl
        · rw [hl] at hne
          exact absurd (by simp) hne
      refine ⟨ihh.1.trans hg1, ?_, ?_⟩
      · intro k2 hk2
        exact List.mem_cons_of_mem _ (ihh.2.1 k2 hk2)
      · intro k3
        rw [lookupData_cons]
        by_cases hk : k = k3
        · rw [if_pos hk]
          subst hk
          have hlhs : lookupData (cleanData lim rest (cleanRow lim row g).2).1 k = [] := by
            apply lookupData_eq_nil_of_lt
            intro e2 he2
            have hmem : e2.1 ∈ rest.map fun e => e.1 :=
              ihh.2.1 e2.1 (List.mem_map.mpr ⟨e2, he2, rfl⟩)
            exact hs2.1 e2.1 hmem
          rw [hlhs, ← hrow.1, hrownil]
        · rw [if_neg hk]
          exact ihlook k3

theorem sortedKeys_fold_add {V : Type} (grade : Nat) : ∀ (ps : List V) (b : Grader V),
    SortedKeys b.data →
    SortedKeys ((ps.foldl (fun b p => b.add grade p) b).data) := by
  intro ps
  induction ps with
  | nil => intro b h; exact h
  | cons p t ih =>
    intro b h
    exact ih _ (sortedKeys_addData b.data grade p h)

theorem lookup_fold_add {V : Type} (grade : Nat) : ∀ (ps : List V) (b : Grader V)
    (k : Nat), SortedKeys b.data →
    (ps.foldl (fun b p => b.add grade p) b).lookup k
      = if k = grade then b.lookup k ++ ps else b.lookup k := by
  intro ps
  induction ps with
  | nil =>
    intro b k _
    by_cases hk : k = grade
    · rw [if_pos hk]
      simp
    · rw [if_neg hk]
      rfl
  | cons p t ih =>
    intro b k h
    show (t.foldl (fun b p => b.add grade p) (b.add grade p)).lookup k = _
    rw [ih (b.add grade p) k (sortedKeys_addData b.data grade p h)]
    have hl : (b.add grade p).lookup k
        = if k = grade then b.lookup k ++ [p] else b.lookup k :=
      lookupData_addData b.data grade k p h
    by_cases hk : k = grade
    · rw [if_pos hk, if_pos hk, hl, if_pos hk]
      simp
    · rw [if_neg hk, if_neg hk, hl, if_neg hk]

theorem runMoves_cons_eq (limit grade : Nat) (prioritize : Bool) (mark : Nat)
    (inputRest : List Path) (mv : Move) (rest : List Move) (s : Solver) (g1 : Game)
    (hg1 : g1 = (((s.game.backward mark).move_card mv.giver mv.taker).move_cards_auto).1) :
    runMoves limit grade prioritize mark inputRest (mv :: rest) s
      = if limit ≤ g1.estimate_path_len then
          runMoves limit grade prioritize mark inputRest rest { s with game := g1 }
        else
          let s1 :=
            if g1.has_next_move then
              if (match doneGet s.done g1.get_invariant with
                  | none => true
                  | some min_len => decide (g1.estimate_path_len < min_len)) then
                { s with
                  game := g1.unfold
                  done := doneInsert s.done g1.get_invariant g1.estimate_path_len
                  bank := s.bank.add (if prioritize then game_priority g1 else 0) g1.path }
              else { s with game := g1 }
            else { s with game := g1 }
          let sol_len := s1.game.path.length
          if decide (sol_len < limit) && s1.game.is_done then
            let bank2 := inputRest.foldl (fun b p => b.add grade p) s1.bank
            let r := clean_bank bank2 s1.game sol_len
            StepRes.solved { bank := r.1, done := doneFilter s1.done sol_len,
                             game := r.2.1, path := some s1.game.path }
          else
            runMoves limit grade prioritize mark inputRest rest s1 := by
  subst hg1
  rfl

/-- **C1.** When the move-expansion loop of `Solver::next` reaches a board
`g1` that is solved (all cascades and free cells empty, `is_done`) with path
length strictly below the effective `path_upper_limit`, it takes the solved
early return regardless of the remaining candidate moves `rest`: the solution
is recorded as `g1`'s path; the not-yet-examined batch paths (`inputRest`) are
first returned to the frontier under the batch's grade behind the existing
bucket contents, other grades untouched; the frontier is then pruned to
exactly the paths whose replayed `estimate_path_len` is strictly below the new
solution length; and the Visited map keeps exactly the entries whose value is
strictly below the new solution length.  (Hypotheses: the solver's bank is
key-sorted as `BTreeMap` guarantees, the desk has its 16 slots, and banked
moves land on the 16 desk slots, as every move produced by the generators
does.) -/
theorem solver_next_solved_branch (limit grade : Nat) (prioritize : Bool)
    (mark : Nat) (inputRest : List Path) (mv : Move) (rest : List Move)
    (s : Solver) (g1 : Game)
    (hg1 : g1 = (((s.game.backward mark).move_card mv.giver mv.taker).move_cards_auto).1)
    (hdone : g1.is_done = true)
    (hlen : g1.path.length < limit)
    (hdesk : g1.desk.length = DESK_SIZE)
    (hsb : SortedKeys s.bank.data)
    (hb : ∀ e ∈ (inputRest.foldl (fun b p => b.add grade p) s.bank).data,
        ∀ p ∈ e.2, ∀ m ∈ p, m.taker < DESK_SIZE) :
    ∃ s1,
      runMoves limit grade prioritize mark inputRest (mv :: rest) s = .solved s1
      ∧ s1.path = some g1.path
      ∧ (∀ gr2, s1.bank.lookup gr2
          = ((inputRest.foldl (fun b p => b.add grade p) s.bank).lookup gr2).filter
              fun p => decide ((g1.rewind.forward p).estimate_path_len
                < g1.path.length))
      ∧ s1.done = s.done.filter (fun e => decide (e.2 < g1.path.length))
      ∧ (inputRest.foldl (fun b p => b.add grade p) s.bank).lookup grade
          = s.bank.lookup grade ++ inputRest
      ∧ ∀ gr2, gr2 ≠ grade →
          (inputRest.foldl (fun b p => b.add grade p) s.bank).lookup gr2
            = s.bank.lookup gr2 := by
  have hestm := estimate_of_is_done hdone
  have hnm := has_next_move_of_is_done hdone
  have hsorted : SortedKeys (inputRest.foldl (fun b p => b.add grade p) s.bank).data :=
    sortedKeys_fold_add grade inputRest s.bank hsb
  have hstab : ∀ e ∈ (inputRest.foldl (fun b p => b.add grade p) s.bank).data,
      ∀ p ∈ e.2, (g1.rewind.forward p).rewind = g1.rewind := by
    intro e he p hp
    rw [rewind_forward_of_takers p g1.rewind (by
      intro m hm
      rw [length_rewind, hdesk]
      exact hb e he p hp m hm)]
    exact rewind_rewind g1
  have hclean := cleanData_spec g1.path.length
    (inputRest.foldl (fun b p => b.add grade p) s.bank).data g1 hstab hsorted
  refine ⟨{ bank := (clean_bank (inputRest.foldl (fun b p => b.add grade p) s.bank)
              g1 g1.path.length).1,
            done := doneFilter s.done g1.path.length,
            game := (clean_bank (inputRest.foldl (fun b p => b.add grade p) s.bank)
              g1 g1.path.length).2.1,
            path := some g1.path }, ?_, rfl, ?_, rfl, ?_, ?_⟩
  · rw [runMoves_cons_eq limit grade prioritize mark inputRest mv rest s g1 hg1]
    rw [if_neg (by omega)]
    rw [hnm]
    show (if decide (g1.path.length < limit) && g1.is_done then
            StepRes.solved
              { bank := (clean_bank (inputRest.foldl (fun b p => b.add grade p) s.bank)
                  g1 g1.path.length).1,
                done := doneFilter s.done g1.path.length,
                game := (clean_bank (inputRest.foldl (fun b p => b.add grade p) s.bank)
                  g1 g1.path.length).2.1,
                path := some g1.path }
          else runMoves limit grade prioritize mark inputRest rest { s with game := g1 })
        = _
    rw [hdone, decide_eq_true hlen]
    rfl
  · intro gr2
    exact hclean.2.2 gr2
  · rw [lookup_fold_add grade inputRest s.bank grade hsb, if_pos rfl]
  · intro gr2 hne
    rw [lookup_fold_add grade inputRest s.bank gr2 hsb, if_neg hne]

def c1Game : Game :=
  { desk := [[], [], [], [], [], [], [], [], [0], [], [], [], [], [], [], []]
    path := [] }

def c1Solver : Solver :=
  { bank := ⟨[(5, [[⟨9, 4⟩]])]⟩, done := [], game := c1Game, path := none }

/-- Witness for C1: one ace on cascade 8; promoting it solves the board at
path length 1 < 10.  The batch remainder `[[⟨8,4⟩]]` is drained back under
grade 3 and then pruned (its estimate 2 is not below the solution length 1),
as is the grade-5 bucket; the Visited map (empty here) keeps only values
below 1. -/
theorem solver_next_solved_branch_witness :
    ∃ s1, runMoves 10 3 false 0 [[⟨8, 4⟩]] [⟨8, 0⟩] c1Solver = .solved s1
      ∧ s1.path = some [⟨8, 0⟩]
      ∧ s1.bank.lookup 3 = []
      ∧ s1.bank.lookup 5 = []
      ∧ s1.done = [] := by
  obtain ⟨s1, h1, h2, h3, h4, _, _⟩ := solver_next_solved_branch 10 3 false 0
    [[⟨8, 4⟩]] ⟨8, 0⟩ [] c1Solver
    ((((c1Solver.game.backward 0).move_card 8 0).move_cards_auto).1)
    rfl (by decide) (by decide) (by decide) (by unfold SortedKeys; decide) (by decide)
  refine ⟨s1, h1, h2.trans (by decide), (h3 3).trans (by decide),
    (h3 5).trans (by decide), h4.trans (by decide)⟩

/-- **C2 (amended).** The Visited-map keep/discard rule of `Solver::next`:
for a branch board `g1` that survives the estimate prune and still has a
legal move, the new path is discarded (no state change beyond the scratch
game) exactly when `g1`'s fingerprint was already recorded with a value not
exceeding the branch's `estimate_path_len`; otherwise the branch is kept and
the Visited map records the branch's `estimate_path_len` (path length plus
unsolved cards plus locks) — not its path length — under the fingerprint,
with the path banked under its priority grade. -/
theorem visited_keep_discard_rule (limit grade : Nat) (prioritize : Bool)
    (mark : Nat) (inputRest : List Path) (mv : Move) (rest : List Move)
    (s : Solver) (g1 : Game)
    (hg1 : g1 = (((s.game.backward mark).move_card mv.giver mv.taker).move_cards_auto).1)
    (hestm : g1.estimate_path_len < limit)
    (hnm : g1.has_next_move = true) :
    ((∃ m, doneGet s.done g1.get_invariant = some m ∧ m ≤ g1.estimate_path_len) →
      runMoves limit grade prioritize mark inputRest (mv :: rest) s
        = runMoves limit grade prioritize mark inputRest rest { s with game := g1 })
    ∧ ((doneGet s.done g1.get_invariant = none
        ∨ ∃ m, doneGet s.done g1.get_invariant = some m ∧ g1.estimate_path_len < m) →
      runMoves limit grade prioritize mark inputRest (mv :: rest) s
        = runMoves limit grade prioritize mark inputRest rest
            { s with
              game := g1
              done := doneInsert s.done g1.get_invariant g1.estimate_path_len
              bank := s.bank.add (if prioritize then game_priority g1 else 0) g1.path }) := by
  have hid : g1.is_done = false := by
    rcases h : g1.is_done with _ | _
    · rfl
    · rw [has_next_move_of_is_done h] at hnm
      cases hnm
  constructor
  · rintro ⟨m, hm, hle⟩
    rw [runMoves_cons_eq limit grade prioritize mark inputRest mv rest s g1 hg1]
    rw [if_neg (by omega), hnm, hm]
    have hmm : (match some m with
        | none => true
        | some min_len => decide (g1.estimate_path_len < min_len)) = false := by
      show decide (g1.estimate_path_len < m) = false
      exact decide_eq_false (by omega)
    rw [hmm]
    show (if decide (g1.path.length < limit) && g1.is_done then _ else
            runMoves limit grade prioritize mark inputRest rest { s with game := g1 })
        = runMoves limit grade prioritize mark inputRest rest { s with game := g1 }
    rw [hid, Bool.and_false]
    rfl
  · intro hkeep
    rw [runMoves_cons_eq limit grade prioritize mark inputRest mv rest s g1 hg1]
    rw [if_neg (by omega), hnm]
    have hcond : (match doneGet s.done g1.get_invariant with
        | none => true
        | some min_len => decide (g1.estimate_path_len < min_len)) = true := by
      rcases hkeep with hnone | ⟨m, hm, hlt⟩
      · rw [hnone]
      · rw [hm]
        exact decide_eq_true hlt
    rw [hcond]
    show (if decide (g1.path.length < limit) && g1.is_done then _ else
            runMoves limit grade prioritize mark inputRest rest
              { s with
                game := g1.unfold
                done := doneInsert s.done g1.get_invariant g1.estimate_path_len
                bank := s.bank.add (if prioritize then game_priority g1 else 0) g1.path })
        = _
    rw [hid, Bool.and_false]
    rfl

def c2Game : Game :=
  { desk := [[], [], [], [], [], [], [], [], [7], [11], [], [], [], [], [], []]
    path := [] }

def c2G1 : Game := (((c2Game.backward 0).move_card 8 4).move_cards_auto).1

def c2SKeep : Solver :=
  { bank := ⟨[]⟩, done := [], game := c2Game, path := none }

def c2SDrop : Solver :=
  { bank := ⟨[]⟩, done := [(c2G1.get_invariant, 2)], game := c2Game, path := none }

/-- Witness for the amended C2 rule: moving the 2♥ (card 7) of cascade 8 to a
free cell leaves a board of estimate 3 with a legal move.  With an empty
Visited map the branch is kept, recording 3 (not the path length 1); with the
fingerprint already recorded at 2 ≤ 3 it is discarded. -/
theorem visited_keep_discard_rule_witness :
    (runMoves 10 0 false 0 [] [⟨8, 4⟩] c2SKeep
      = runMoves 10 0 false 0 [] []
          { c2SKeep with
            game := c2G1
            done := doneInsert c2SKeep.done c2G1.get_invariant c2G1.estimate_path_len
            bank := c2SKeep.bank.add 0 c2G1.path })
    ∧ runMoves 10 0 false 0 [] [⟨8, 4⟩] c2SDrop
      = runMoves 10 0 false 0 [] [] { c2SDrop with game := c2G1 } := by
  constructor
  · exact (visited_keep_discard_rule 10 0 false 0 [] ⟨8, 4⟩ [] c2SKeep c2G1 rfl
      (by decide) (by decide)).2 (Or.inl (by decide))
  · exact (visited_keep_discard_rule 10 0 false 0 [] ⟨8, 4⟩ [] c2SDrop c2G1 rfl
      (by decide) (by decide)).1 ⟨2, by decide, by decide⟩

/-- The 52-card deal for seed 1377011176, as documented by the unit test of
deck.rs ("K♦3♠4♠J♠T♥7♠K♠A♠…", with `card = rank * 4 + suit` and suits
♠ ♦ ♣ ♥ = 0 1 2 3). -/
def deck1377011176 : List Nat :=
  [49, 8, 12, 40, 39, 24, 48, 0,
   51, 5, 4, 2, 50, 20, 7, 14,
   35, 44, 6, 3, 37, 13, 1, 18,
   34, 15, 28, 17, 25, 11, 19, 16,
   45, 9, 32, 33, 46, 36, 10, 30,
   41, 27, 21, 31, 29, 38, 42, 43,
   47, 22, 23, 26]

/-- **C2 counterexample.** After `Solver::deal` on the documented deal of
seed 1377011176 and a single `Solver::next(1000, 1000)`, the path
`[⟨10, 11⟩]` sits in the frontier (grade 0) and reaches a board whose
fingerprint the Visited map records at 70 — its `estimate_path_len` — even
though that very path of length 1 is a known way to reach the fingerprint:
the map does not store the shortest known path length. -/
theorem visited_map_counterexample :
    [(⟨10, 11⟩ : Move)] ∈ ((Solver.deal deck1377011176).next 1000 1000).2.bank.lookup 0
    ∧ doneGet ((Solver.deal deck1377011176).next 1000 1000).2.done
        ((Game.new.deal deck1377011176).set_path [⟨10, 11⟩]).get_invariant = some 70
    ∧ ([(⟨10, 11⟩ : Move)] : Path).length < 70 := by
  decide

end FC
